import Mathlib

/-!
Verification development for the object-storage core of `libwyag.py`
(a minimal content tracker).  Byte strings are modelled as `List Nat`
(one entry per byte); Python `bytes.find`, slicing and `bytes.replace`
are embedded as executable functions with Python semantics.  Stateful
file-system operations are modelled by explicit store passing, raised
Python exceptions by `Except` error values, and possibly divergent
recursion (Python's unbounded recursion / `while True`) by explicit
fuel, with fuel exhaustion as a distinguished error.
-/

namespace Wyag

/-- Bytes: a Python `bytes` value, one `Nat` per byte. -/
abbrev Bytes := List Nat

/-- First index of byte `c` in a byte list, if any (helper for `bytes.find`). -/
def byteFind (c : Nat) : Bytes → Option Nat
  | [] => none
  | x :: xs => if x = c then some 0 else (byteFind c xs).map (· + 1)

/-- Python `raw.find(bytes([c]), start)` with a non-negative start index:
returns the first index `≥ start` holding byte `c`, or `-1`. -/
def pyFindNat (raw : Bytes) (c : Nat) (start : Nat) : Int :=
  match byteFind c (raw.drop start) with
  | some j => ((start + j : Nat) : Int)
  | none => -1

/-- Python `raw.find(bytes([c]), start)` for an arbitrary (possibly
negative) start index: a negative start counts from the end, clamped at 0. -/
def pyFind (raw : Bytes) (c : Nat) (start : Int) : Int :=
  pyFindNat raw c (if start < 0 then ((raw.length : Int) + start).toNat else start.toNat)

/-- Normalization of one Python slice endpoint against length `n`:
negative indices count from the end (clamped at 0), large ones clamp at `n`. -/
def pySliceIdx (n : Nat) (i : Int) : Nat :=
  if i < 0 then ((n : Int) + i).toNat else min i.toNat n

/-- Python slice `raw[lo:hi]`. -/
def pySlice (raw : Bytes) (lo hi : Int) : Bytes :=
  (raw.take (pySliceIdx raw.length hi)).drop (pySliceIdx raw.length lo)

/-- Python `raw[i]` for an `int` index: `none` models an `IndexError`. -/
def pyIndex (raw : Bytes) (i : Int) : Option Nat :=
  if i < 0 then
    if (0 : Int) ≤ (raw.length : Int) + i then raw.get? ((raw.length : Int) + i).toNat else none
  else raw.get? i.toNat

/-- Python `v.replace(b'\n ', b'\n')`: drop the single space after each
newline, scanning left to right without overlap (continuation unfolding). -/
def replCont : Bytes → Bytes
  | [] => []
  | [c] => [c]
  | c :: d :: rest =>
    if c = 10 ∧ d = 32 then 10 :: replCont rest
    else c :: replCont (d :: rest)

/-- Python `v.replace(b'\n', b'\n ')`: insert a space after every newline
(continuation folding used by the serializer). -/
def replExp : Bytes → Bytes
  | [] => []
  | c :: rest => if c = 10 then 10 :: 32 :: replExp rest else c :: replExp rest

/-- Every newline in the byte list is immediately followed (inside the
list) by a space; in particular the list does not end with a newline. -/
def NoLoneNl : Bytes → Prop
  | [] => True
  | [c] => c ≠ 10
  | c :: d :: rest => (c = 10 → d = 32) ∧ NoLoneNl (d :: rest)

instance : DecidablePred NoLoneNl := fun l => by
  induction l with
  | nil => exact .isTrue trivial
  | cons c rest ih =>
    cases rest with
    | nil => exact (inferInstance : Decidable (c ≠ 10))
    | cons d rest' =>
      have : Decidable ((c = 10 → d = 32) ∧ NoLoneNl (d :: rest')) := @instDecidableAnd _ _ _ ih
      exact this

/-- Decimal read-back of an ASCII digit string (`int` on pure digits). -/
def decParse (ds : Bytes) : Nat :=
  ds.foldl (fun a d => a * 10 + (d - 48)) 0

/-- Fuel-driven core of Python `str(n)` for a natural number, producing
ASCII digit bytes. -/
def natToDecGo : Nat → Nat → Bytes
  | 0, _ => []
  | fuel + 1, n => if n < 10 then [48 + n] else natToDecGo fuel (n / 10) ++ [48 + n % 10]

/-- Python `str(n).encode()` for a natural number `n`. -/
def natToDec (n : Nat) : Bytes := natToDecGo (n + 1) n

/-! ## KVLM codec (`kvlm_parse` / `kvlm_serialize`)

A Python `OrderedDict` whose values are either `bytes` or a `list` of
`bytes` is modelled as an ordered association list over a two-shape
value type.  Assignment to an existing key keeps its position
(Python dict semantics); a fresh key is appended at the end. -/

/-- A KVLM dictionary value: Python stores either plain `bytes` or a
`list` of `bytes` under a key. -/
inductive KVal where
  | scalar (v : Bytes) : KVal
  | arr (vs : List Bytes) : KVal
deriving DecidableEq, Repr

/-- An `OrderedDict` from byte-string keys to KVLM values. -/
abbrev Record := List (Bytes × KVal)

/-- Python `key in dct` / `dct[key]` read access. -/
def lookupRec : Record → Bytes → Option KVal
  | [], _ => none
  | (k, v) :: rest, key => if k = key then some v else lookupRec rest key

/-- Python `dct[key] = v`: replace in place if the key exists, else append. -/
def setRec : Record → Bytes → KVal → Record
  | [], key, v => [(key, v)]
  | (k, w) :: rest, key, v =>
    if k = key then (k, v) :: rest else (k, w) :: setRec rest key v

/-- The `kvlm_parse` field-update step: a first occurrence stores a bare
value, a repeat promotes it to a list, further repeats append. -/
def dctAdd (dct : Record) (key : Bytes) (value : Bytes) : Record :=
  match lookupRec dct key with
  | none => dct ++ [(key, .scalar value)]
  | some (.scalar old) => setRec dct key (.arr [old, value])
  | some (.arr vs) => setRec dct key (.arr (vs ++ [value]))

/-- Failure modes of the KVLM codec (raised Python exceptions), plus fuel
exhaustion standing for genuine divergence of the source recursion. -/
inductive KErr where
  | assertFail : KErr
  | indexError : KErr
  | keyError : KErr
  | typeError : KErr
  | diverge : KErr
deriving DecidableEq, Repr

/-- The `while True` scan of `kvlm_parse` locating the end of a value:
`end = raw.find(b'\n', end + 1)` until the byte after the newline is not
a space.  `raw[end + 1]` past the end is an `IndexError`. -/
def scanEnd (raw : Bytes) : Nat → Int → Except KErr Int
  | 0, _ => .error .diverge
  | fuel + 1, e =>
    let e' := pyFind raw 10 (e + 1)
    match pyIndex raw (e' + 1) with
    | none => .error .indexError
    | some c => if c = 32 then scanEnd raw fuel e' else .ok e'

/-- Recursive body of `kvlm_parse(raw, start, dct)`, faithful to the
source: base case at a blank line (with its `assert nl == start`),
otherwise read one key, scan to the end of the (possibly folded) value,
unfold continuations, update the dict and recurse. -/
def kvlm_parse_go (raw : Bytes) : Nat → Nat → Record → Except KErr Record
  | 0, _, _ => .error .diverge
  | fuel + 1, start, dct =>
    let spc := pyFind raw 32 (start : Int)
    let nl := pyFind raw 10 (start : Int)
    if spc < 0 ∨ nl < spc then
      if nl = (start : Int) then
        .ok (setRec dct [] (.scalar (pySlice raw ((start : Int) + 1) (raw.length : Int))))
      else .error .assertFail
    else
      let key := pySlice raw (start : Int) spc
      match scanEnd raw (2 * raw.length + 2) (start : Int) with
      | .error e => .error e
      | .ok e =>
        let value := replCont (pySlice raw (spc + 1) e)
        kvlm_parse_go raw fuel (e + 1).toNat (dctAdd dct key value)

/-- Top-level `kvlm_parse(raw)`: fresh dict, start 0.  The fuel
`raw.length + 1` exceeds the recursion depth of every terminating run. -/
def kvlm_parse (raw : Bytes) : Except KErr Record :=
  kvlm_parse_go raw (raw.length + 1) 0 []

/-- One serialized field line `k + b' ' + v.replace(b'\n', b'\n ') + b'\n'`. -/
def serLine (k v : Bytes) : Bytes := k ++ [32] ++ replExp v ++ [10]

/-- The value list a field is serialized from (`if type(val) != list: val = [val]`). -/
def valList : KVal → List Bytes
  | .scalar v => [v]
  | .arr vs => vs

/-- The field-emission loop of `kvlm_serialize`: every key except the
message key `b''`, in recorded order, one line per value. -/
def serFields : Record → Bytes
  | [] => []
  | (k, val) :: rest =>
    if k = [] then serFields rest
    else ((valList val).map (serLine k)).flatten ++ serFields rest

/-- `kvlm_serialize(kvlm)`: fields, then a blank line and the message
(`kvlm[b'']`).  A missing message key is a `KeyError`; a list-valued
message is the `TypeError` of `bytes + list`. -/
def kvlm_serialize (kvlm : Record) : Except KErr Bytes :=
  match lookupRec kvlm [] with
  | none => .error .keyError
  | some (.arr _) => .error .typeError
  | some (.scalar m) => .ok (serFields kvlm ++ [10] ++ m)

/-! ## Object model, framing and store (`obj_read` / `obj_write`)

`GitObject` subclasses: only `GitBlob` and `GitCommit` exist in the
source (the `tree`/`tag` branches of `obj_read` are commented out).
The constructor runs `deserialize(data)` only when `data` is truthy, so
an empty payload leaves the data attribute missing (`none` here).
The on-disk store is modelled as a map from the two-level path
`(sha[:2], sha[2:])` to raw file contents; `zlib` and `hashlib.sha1`
are opaque byte functions passed as parameters. -/

/-- The four variant tags of the object format. -/
inductive Kind where
  | blob | tree | commit | tag
deriving DecidableEq, Repr

/-- The lowercase tag bytes of a kind (`b'blob'`, `b'tree'`, `b'commit'`, `b'tag'`). -/
def tagBytes : Kind → Bytes
  | .blob => [98, 108, 111, 98]
  | .tree => [116, 114, 101, 101]
  | .commit => [99, 111, 109, 109, 105, 116]
  | .tag => [116, 97, 103]

/-- The classes `obj_read` actually dispatches to: `GitCommit` and
`GitBlob` (the other two cases are commented out in the source). -/
inductive ObjClass where
  | blob | commit
deriving DecidableEq, Repr

/-- Failure modes of the object layer: raised Python exceptions plus the
embedded KVLM failures. -/
inductive Err where
  | fileNotFound : Err
  | unicodeError : Err
  | valueError : Err
  | badLength : Err
  | noneNotCallable : Err
  | attributeError : Err
  | assertError : Err
  | kvlm (e : KErr) : Err
  | diverge : Err
deriving DecidableEq, Repr

/-- Python whitespace bytes stripped by `int()`. -/
def isPySpace (c : Nat) : Bool :=
  c = 32 || c = 9 || c = 10 || c = 11 || c = 12 || c = 13

/-- An ASCII decimal digit byte. -/
def isDigitByte (c : Nat) : Bool := 48 ≤ c && c < 58

/-- Python `int(bs.decode('ascii'))`: `UnicodeDecodeError` on a
non-ASCII byte, then strip surrounding whitespace, allow an optional
sign, and require a nonempty digit string (`ValueError` otherwise). -/
def pyIntDecode (bs : Bytes) : Except Err Int :=
  if bs.any (fun c => 128 ≤ c) then .error .unicodeError
  else
    match ((bs.dropWhile isPySpace).reverse.dropWhile isPySpace).reverse with
    | [] => .error .valueError
    | c :: ds =>
      if c = 45 then
        if ds ≠ [] ∧ ds.all isDigitByte then .ok (-(decParse ds : Int))
        else .error .valueError
      else if c = 43 then
        if ds ≠ [] ∧ ds.all isDigitByte then .ok (decParse ds : Int)
        else .error .valueError
      else
        if (c :: ds).all isDigitByte then .ok (decParse (c :: ds) : Int)
        else .error .valueError

/-- An in-memory `GitObject`: a `GitBlob` carries `blobdata`, a
`GitCommit` carries `kvlm`; `none` models the attribute never having
been set because the constructor skipped `deserialize` on falsy data. -/
inductive GitObj where
  | blob (blobdata : Option Bytes) : GitObj
  | commit (kvlm : Option Record) : GitObj
deriving DecidableEq, Repr

/-- `obj.fmt`: the class-level tag bytes. -/
def objFmt : GitObj → Bytes
  | .blob _ => tagBytes .blob
  | .commit _ => tagBytes .commit

/-- `format_class(repo, data)`: construct the matched class, running
`deserialize(data)` only if `data` is truthy (`GitObject.__init__`). -/
def mkGitObj (cls : ObjClass) (data : Bytes) : Except Err GitObj :=
  if data = [] then
    .ok (match cls with | .blob => .blob none | .commit => .commit none)
  else
    match cls with
    | .blob => .ok (.blob (some data))
    | .commit =>
      match kvlm_parse data with
      | .error e => .error (.kvlm e)
      | .ok r => .ok (.commit (some r))

/-- `obj.serialize()`: blob data verbatim, commit via `kvlm_serialize`;
an object whose data attribute was never set raises `AttributeError`. -/
def objSerialize : GitObj → Except Err Bytes
  | .blob none => .error .attributeError
  | .blob (some d) => .ok d
  | .commit none => .error .attributeError
  | .commit (some r) =>
    match kvlm_serialize r with
    | .error e => .error (.kvlm e)
    | .ok s => .ok s

/-- The framed header-plus-payload bytes written by `obj_write`:
`fmt + b' ' + str(len(data)).encode() + b'\x00' + data`. -/
def frameRaw (fmtB data : Bytes) : Bytes :=
  fmtB ++ [32] ++ natToDec data.length ++ [0] ++ data

/-- The object store: file contents under the bucket path
`(sha[:2], sha[2:])` beneath the objects directory. -/
abbrev Store := List ((Bytes × Bytes) × Bytes)

/-- Read a stored file, `none` when no file exists at the path. -/
def storeGet : Store → Bytes × Bytes → Option Bytes
  | [], _ => none
  | (p, c) :: rest, path => if p = path then some c else storeGet rest path

/-- `open(path, "wb")` + `write`: create or overwrite the file at the path. -/
def storeSet : Store → Bytes × Bytes → Bytes → Store
  | [], path, c => [(path, c)]
  | (p, d) :: rest, path, c =>
    if p = path then (p, c) :: rest else (p, d) :: storeSet rest path c

/-- The two-level bucket path of an id: `sha[:2]` and `sha[2:]`. -/
def shaPath (sha : Bytes) : Bytes × Bytes :=
  (pySlice sha 0 2, pySlice sha 2 (sha.length : Int))

/-- The length check and class dispatch of `obj_read`, parameterized over
the already-located space and null indices: decode the declared size from
`raw[space_index:zero_index]`, compare against the bytes after the null,
match `raw[:space_index]` against the wired tags and call the matched
constructor.  An unmatched tag leaves `format_class` as `None`; calling
it is the `TypeError` modelled by `noneNotCallable`. -/
def objDispatch (raw : Bytes) (spc zero : Int) : Except Err GitObj :=
  match pyIntDecode (pySlice raw spc zero) with
  | .error e => .error e
  | .ok size =>
    if size ≠ (raw.length : Int) - zero - 1 then .error .badLength
    else
      match (if pySlice raw 0 spc = tagBytes .commit then some ObjClass.commit
             else if pySlice raw 0 spc = tagBytes .blob then some ObjClass.blob
             else none) with
      | none => .error .noneNotCallable
      | some cls => mkGitObj cls (pySlice raw (zero + 1) (raw.length : Int))

/-- The header-parsing part of `obj_read`, applied to the decompressed
bytes: the first space ends the format tag (`raw.find(b' ')`), the first
null at or after it ends the declared length (`raw.find(b'\x00',
space_index)`), then `objDispatch` checks the length and dispatches. -/
def objParseFrame (raw : Bytes) : Except Err GitObj :=
  objDispatch raw (pyFind raw 32 0) (pyFind raw 0 (pyFind raw 32 0))

/-- `obj_read(repo, sha)`: open `objects/sha[:2]/sha[2:]`, decompress,
then parse the frame and dispatch. -/
def obj_read (decompress : Bytes → Bytes) (store : Store) (sha : Bytes) :
    Except Err GitObj :=
  match storeGet store (shaPath sha) with
  | none => .error .fileNotFound
  | some file => objParseFrame (decompress file)

/-- `obj_write(obj, actually_write)`: serialize, frame, hash; when
writing, store the compressed frame under the digest's bucket path.
Returns the digest and the (possibly updated) store. -/
def obj_write (compress : Bytes → Bytes) (sha1hex : Bytes → Bytes)
    (obj : GitObj) (actuallyWrite : Bool) (store : Store) :
    Except Err (Bytes × Store) :=
  match objSerialize obj with
  | .error e => .error e
  | .ok data =>
    let result := frameRaw (objFmt obj) data
    let sha := sha1hex result
    if actuallyWrite then
      .ok (sha, storeSet store (shaPath sha) (compress result))
    else
      .ok (sha, store)

/-- `obj_find(repo, name, fmt, follow)`: the source's placeholder name
resolver, which returns its input unchanged. -/
def obj_find (repo : Store) (name : Bytes) (fmt : Option Bytes)
    (follow : Bool) : Bytes :=
  let _ := repo
  let _ := fmt
  let _ := follow
  name

/-! ## Commit graph walk (`log_graphviz`)

The mutable `seen` set is threaded explicitly; membership is all the
code observes, and `seen.add(sha)` appends.  The walk returns the final
`seen`, whose new suffix is exactly the visitation order.  The mutual
recursion (node, then the `for p in parents` loop) is fuelled. -/

/-- The `parent` key bytes `b'parent'`. -/
def parentKey : Bytes := [112, 97, 114, 101, 110, 116]

mutual

/-- `log_graphviz(repo, sha, seen)`: return on an already-seen id, mark
the id seen, read the object, assert it is a commit, stop at a commit
with no `parent` field, otherwise normalize the parents to a list and
walk them in order. -/
def log_graphviz (decompress : Bytes → Bytes) (store : Store) :
    Nat → Bytes → List Bytes → Except Err (List Bytes)
  | 0, _, _ => .error .diverge
  | fuel + 1, sha, seen =>
    if sha ∈ seen then .ok seen
    else
      let seen1 := seen ++ [sha]
      match obj_read decompress store sha with
      | .error e => .error e
      | .ok (.blob _) => .error .assertError
      | .ok (.commit none) => .error .attributeError
      | .ok (.commit (some kvlm)) =>
        match lookupRec kvlm parentKey with
        | none => .ok seen1
        | some val => logParents decompress store fuel (valList val) seen1

/-- The `for p in parents` loop: decode each parent id as ASCII, then
recurse into it, threading the shared `seen` set. -/
def logParents (decompress : Bytes → Bytes) (store : Store) :
    Nat → List Bytes → List Bytes → Except Err (List Bytes)
  | 0, _, _ => .error .diverge
  | _ + 1, [], seen => .ok seen
  | fuel + 1, p :: rest, seen =>
    if p.all (fun c => c < 128) then
      match log_graphviz decompress store fuel p seen with
      | .error e => .error e
      | .ok seen' => logParents decompress store fuel rest seen'
    else .error .unicodeError

end

/-- Folding `dctAdd` over successive values of one key (the multi-line
reconstruction of one field). -/
def addVals (dct : Record) (k : Bytes) (vs : List Bytes) : Record :=
  vs.foldl (fun d v => dctAdd d k v) dct

/-- The collapsed dictionary value after adding values `v :: vs`. -/
def collapseVals (v : Bytes) (vs : List Bytes) : KVal :=
  match vs with
  | [] => .scalar v
  | _ => .arr (v :: vs)

/-- A well-formed field key: nonempty, no space, no newline.  Every key
the parser produces in the recursive case that is not empty has this
shape, and every such key serializes to a line the parser reads back. -/
def wfKey (k : Bytes) : Prop := k ≠ [] ∧ 32 ∉ k ∧ 10 ∉ k

/-- A well-formed parser-produced value: lists only arise from repeated
keys, so they hold at least two entries. -/
def wfVal : KVal → Prop
  | .scalar _ => True
  | .arr vs => 2 ≤ vs.length

/-- Total number of serialized lines of a field list. -/
def numLines : Record → Nat
  | [] => 0
  | (_, val) :: rest => (valList val).length + numLines rest

/-- Shape invariant maintained by `kvlm_parse`: keys are unique, every
key is either empty or well formed, and every list value has at least
two entries. -/
def WfLoose (r : Record) : Prop :=
  (r.map Prod.fst).Nodup ∧ ∀ p ∈ r, (p.1 = [] ∨ wfKey p.1) ∧ wfVal p.2

/-- The concatenation of simple `key value\n` lines. -/
def klines (ls : List (Bytes × Bytes)) : Bytes :=
  (ls.map (fun p => p.1 ++ [32] ++ p.2 ++ [10])).flatten


/-- A four-commit diamond history (ids `aaaa`, `bbbb`, `cccc`, `dddd`):
`aaaa` is a merge of `bbbb` and `cccc`, both children of root `dddd`.
Stored uncompressed, for use with `decompress = id`. -/
def diamondStore : Store :=
  [(shaPath [97, 97, 97, 97], frameRaw (tagBytes .commit)
      (parentKey ++ [32] ++ [98, 98, 98, 98] ++ [10]
        ++ parentKey ++ [32] ++ [99, 99, 99, 99] ++ [10, 10, 109])),
   (shaPath [98, 98, 98, 98], frameRaw (tagBytes .commit)
      (parentKey ++ [32] ++ [100, 100, 100, 100] ++ [10, 10, 109])),
   (shaPath [99, 99, 99, 99], frameRaw (tagBytes .commit)
      (parentKey ++ [32] ++ [100, 100, 100, 100] ++ [10, 10, 109])),
   (shaPath [100, 100, 100, 100], frameRaw (tagBytes .commit) [10, 109])]

/-! ## Lemmas: byte search and slicing -/

theorem byteFind_eq_none {c : Nat} {l : Bytes} : byteFind c l = none ↔ c ∉ l := by
  induction l with
  | nil => simp [byteFind]
  | cons x xs ih =>
    by_cases hx : x = c
    · subst hx; simp [byteFind]
    · simp [byteFind, hx, ih, Ne.symm hx]

theorem byteFind_cons {c x : Nat} {l : Bytes} :
    byteFind c (x :: l) = if x = c then some 0 else (byteFind c l).map (· + 1) := rfl

theorem byteFind_cons_self {c : Nat} {l : Bytes} : byteFind c (c :: l) = some 0 := by
  simp [byteFind_cons]

theorem byteFind_append_left {c : Nat} {a b : Bytes} (h : c ∉ a) :
    byteFind c (a ++ b) = (byteFind c b).map (· + a.length) := by
  induction a with
  | nil => cases hb : byteFind c b <;> simp [hb]
  | cons x xs ih =>
    have hx : ¬ x = c := fun hxc => h (hxc ▸ List.mem_cons_self x xs)
    have hxs : c ∉ xs := fun hc => h (List.mem_cons_of_mem x hc)
    rw [List.cons_append, byteFind_cons, if_neg hx, ih hxs]
    cases hb : byteFind c b with
    | none => simp
    | some j => simp only [Option.map_some', List.length_cons, Option.some.injEq]; omega

theorem byteFind_not_mem_take {c : Nat} {l : Bytes} {j : Nat}
    (h : byteFind c l = some j) : c ∉ l.take j := by
  induction l generalizing j with
  | nil => simp [byteFind] at h
  | cons x xs ih =>
    by_cases hx : x = c
    · subst hx; simp [byteFind] at h; subst h; simp
    · simp only [byteFind, hx, if_false, Option.map_eq_some'] at h
      obtain ⟨j', hj', rfl⟩ := h
      simp only [List.take_succ_cons, List.mem_cons]
      push_neg
      exact ⟨fun hcx => hx hcx.symm, ih hj'⟩

theorem byteFind_lt_length {c : Nat} {l : Bytes} {j : Nat}
    (h : byteFind c l = some j) : j < l.length := by
  induction l generalizing j with
  | nil => simp [byteFind] at h
  | cons x xs ih =>
    by_cases hx : x = c
    · subst hx; simp [byteFind] at h; subst h; simp
    · simp only [byteFind, hx, if_false, Option.map_eq_some'] at h
      obtain ⟨j', hj', rfl⟩ := h
      have := ih hj'
      simp only [List.length_cons]
      omega

theorem byteFind_get {c : Nat} {l : Bytes} {j : Nat}
    (h : byteFind c l = some j) : l.get? j = some c := by
  induction l generalizing j with
  | nil => simp [byteFind] at h
  | cons x xs ih =>
    by_cases hx : x = c
    · subst hx; simp [byteFind] at h; subst h; simp
    · simp only [byteFind, hx, if_false, Option.map_eq_some'] at h
      obtain ⟨j', hj', rfl⟩ := h
      simpa using ih hj'

theorem pyFindNat_none {raw : Bytes} {c s : Nat} (h : byteFind c (raw.drop s) = none) :
    pyFindNat raw c s = -1 := by
  rw [pyFindNat, h]

theorem pyFindNat_some {raw : Bytes} {c s j : Nat} (h : byteFind c (raw.drop s) = some j) :
    pyFindNat raw c s = ((s + j : Nat) : Int) := by
  rw [pyFindNat, h]

theorem pyFind_natCast (raw : Bytes) (c : Nat) (s : Nat) :
    pyFind raw c (s : Int) = pyFindNat raw c s := by
  rw [pyFind, if_neg (by omega)]
  simp

theorem pyIndex_natCast (raw : Bytes) (i : Nat) :
    pyIndex raw (i : Int) = raw.get? i := by
  rw [pyIndex, if_neg (by omega)]
  simp

theorem pySlice_nat (raw : Bytes) (a b : Nat) :
    pySlice raw (a : Int) (b : Int) = (raw.drop a).take (b - a) := by
  have hidx : ∀ m : Nat, pySliceIdx raw.length (m : Int) = min m raw.length := by
    intro m; simp [pySliceIdx]
  rw [pySlice, hidx, hidx]
  have h1 : raw.take (min b raw.length) = raw.take b := by
    rw [List.take_eq_take]
    omega
  rw [h1]
  rcases Nat.le_total a raw.length with ha | ha
  · rw [Nat.min_eq_left ha, List.drop_take, List.take_eq_take, List.length_drop]
  · rw [Nat.min_eq_right ha]
    have hl : (raw.take b).length ≤ raw.length := by
      simp [List.length_take]
    rw [List.drop_eq_nil_of_le hl, List.drop_eq_nil_of_le (by omega), List.take_nil]

theorem pyFindNat_drop {raw u : Bytes} {s : Nat} (h : raw.drop s = u) {c : Nat} :
    pyFindNat raw c s = match byteFind c u with
      | some j => ((s + j : Nat) : Int)
      | none => -1 := by
  rw [pyFindNat, h]

theorem get?_of_drop {raw u : Bytes} {n k : Nat} (h : raw.drop n = u) :
    raw.get? (n + k) = u.get? k := by
  subst h
  rw [List.get?_eq_getElem?, List.get?_eq_getElem?, List.getElem?_drop]

theorem pySlice_of_drop {raw u : Bytes} {s j : Nat} (h : raw.drop s = u) :
    pySlice raw (s : Int) ((s + j : Nat) : Int) = u.take j := by
  rw [pySlice_nat, h, Nat.add_sub_cancel_left]

/-! ## Lemmas: continuation folding and unfolding -/

theorem replExp_eq_nil {v : Bytes} : replExp v = [] ↔ v = [] := by
  cases v with
  | nil => simp [replExp]
  | cons c rest =>
    constructor
    · intro h
      by_cases hc : c = 10 <;> simp [replExp, hc] at h
    · intro h; cases h

theorem replCont_replExp (v : Bytes) : replCont (replExp v) = v := by
  induction v with
  | nil => rfl
  | cons c rest ih =>
    by_cases hc : c = 10
    · subst hc
      show replCont (10 :: 32 :: replExp rest) = 10 :: rest
      rw [show replCont (10 :: 32 :: replExp rest) = 10 :: replCont (replExp rest) from by
        rw [replCont]; simp]
      rw [ih]
    · rw [show replExp (c :: rest) = c :: replExp rest from by rw [replExp]; simp [hc]]
      cases h' : replExp rest with
      | nil =>
        rw [replExp_eq_nil.mp h']
        rfl
      | cons d w =>
        have hstep : replCont (c :: d :: w) = c :: replCont (d :: w) := by
          rw [replCont]
          simp [hc]
        rw [hstep, ← h', ih]

theorem noLoneNl_cons {c : Nat} {l : Bytes}
    (hc : c ≠ 10 ∨ l.head? = some 32) (hl : NoLoneNl l) : NoLoneNl (c :: l) := by
  cases l with
  | nil =>
    rcases hc with hc | hc
    · exact hc
    · simp at hc
  | cons d w =>
    refine ⟨fun h10 => ?_, hl⟩
    rcases hc with hc | hc
    · exact absurd h10 hc
    · simpa using hc

theorem NoLoneNl.tail {c : Nat} {l : Bytes} (h : NoLoneNl (c :: l)) : NoLoneNl l := by
  cases l with
  | nil => trivial
  | cons d w => exact h.2

theorem noLoneNl_replExp (v : Bytes) : NoLoneNl (replExp v) := by
  induction v with
  | nil => trivial
  | cons c rest ih =>
    by_cases hc : c = 10
    · subst hc
      show NoLoneNl (10 :: 32 :: replExp rest)
      exact noLoneNl_cons (Or.inr rfl) (noLoneNl_cons (Or.inl (by omega)) ih)
    · rw [show replExp (c :: rest) = c :: replExp rest from by rw [replExp]; simp [hc]]
      exact noLoneNl_cons (Or.inl hc) ih

theorem noLoneNl_of_not_mem {v : Bytes} (h : 10 ∉ v) : NoLoneNl v := by
  induction v with
  | nil => trivial
  | cons c rest ih =>
    have hc : c ≠ 10 := fun hc => h (hc ▸ List.mem_cons_self c rest)
    exact noLoneNl_cons (Or.inl hc) (ih fun hm => h (List.mem_cons_of_mem c hm))

theorem noLoneNl_append {a b : Bytes} (ha : 10 ∉ a) (hb : NoLoneNl b) :
    NoLoneNl (a ++ b) := by
  induction a with
  | nil => simpa using hb
  | cons c rest ih =>
    have hc : c ≠ 10 := fun hc => ha (hc ▸ List.mem_cons_self c rest)
    exact noLoneNl_cons (Or.inl hc) (ih fun hm => ha (List.mem_cons_of_mem c hm))

theorem noLoneNl_drop {u : Bytes} (k : Nat) (h : NoLoneNl u) : NoLoneNl (u.drop k) := by
  induction k generalizing u with
  | zero => simpa using h
  | succ k ih =>
    cases u with
    | nil => trivial
    | cons c w => exact ih h.tail

theorem noLoneNl_split {u : Bytes} {j : Nat} (hu : NoLoneNl u)
    (hj : byteFind 10 u = some j) : u.get? (j + 1) = some 32 := by
  induction u generalizing j with
  | nil => simp [byteFind] at hj
  | cons c w ih =>
    by_cases hc : c = 10
    · subst hc
      rw [byteFind_cons_self] at hj
      injection hj with hj
      subst hj
      cases w with
      | nil => exact absurd rfl hu
      | cons d w' =>
        have := hu.1 rfl
        subst this
        rfl
    · rw [byteFind_cons, if_neg hc] at hj
      rw [Option.map_eq_some'] at hj
      obtain ⟨j', hj', rfl⟩ := hj
      simpa using ih hu.tail hj'

/-! ## Lemmas: the value-end scan -/

theorem byteFind_append_some {c : Nat} {a b : Bytes} {j : Nat}
    (h : byteFind c a = some j) : byteFind c (a ++ b) = some j := by
  induction a generalizing j with
  | nil => simp [byteFind] at h
  | cons x xs ih =>
    by_cases hx : x = c
    · subst hx
      rw [byteFind_cons_self] at h
      injection h with h
      subst h
      exact byteFind_cons_self
    · rw [byteFind_cons, if_neg hx, Option.map_eq_some'] at h
      obtain ⟨j', hj', rfl⟩ := h
      rw [List.cons_append, byteFind_cons, if_neg hx, ih hj']
      rfl

theorem get?_append_add {a b : Bytes} {k : Nat} :
    (a ++ b).get? (a.length + k) = b.get? k := by
  rw [List.get?_eq_getElem?, List.get?_eq_getElem?, List.getElem?_append]
  rw [if_neg (by omega)]
  congr 1
  omega

theorem get?_append_lt {a b : Bytes} {k : Nat} (h : k < a.length) :
    (a ++ b).get? k = a.get? k := by
  rw [List.get?_eq_getElem?, List.get?_eq_getElem?, List.getElem?_append, if_pos h]

theorem get?_some_lt {l : Bytes} {k a : Nat} (h : l.get? k = some a) : k < l.length := by
  by_contra hk
  rw [List.get?_eq_none.mpr (by omega)] at h
  cases h

theorem scanEnd_succ (raw : Bytes) (f : Nat) (e : Int) :
    scanEnd raw (f + 1) e =
      match pyIndex raw (pyFind raw 10 (e + 1) + 1) with
      | none => .error .indexError
      | some c =>
        if c = 32 then scanEnd raw f (pyFind raw 10 (e + 1))
        else .ok (pyFind raw 10 (e + 1)) := rfl

theorem scanEnd_spec {raw : Bytes} {u rest : Bytes} {n fuel : Nat}
    (hu : NoLoneNl u) (hdrop : raw.drop (n + 1) = u ++ 10 :: rest)
    (hrest : rest.head? ≠ some 32) (hfuel : u.length < fuel) :
    scanEnd raw fuel (n : Int) =
      if rest = [] then .error .indexError
      else .ok ((n + 1 + u.length : Nat) : Int) := by
  induction fuel generalizing u n with
  | zero => omega
  | succ f ih =>
    have hcast : (n : Int) + 1 = ((n + 1 : Nat) : Int) := by push_cast; ring
    cases hfind : byteFind 10 u with
    | none =>
      have h10 : 10 ∉ u := byteFind_eq_none.mp hfind
      have hbf : byteFind 10 (u ++ 10 :: rest) = some u.length := by
        rw [byteFind_append_left h10, byteFind_cons_self]
        simp
      have he' : pyFind raw 10 ((n : Int) + 1) = ((n + 1 + u.length : Nat) : Int) := by
        rw [hcast, pyFind_natCast, pyFindNat_drop hdrop, hbf]
      have hindex : pyIndex raw (((n + 1 + u.length : Nat) : Int) + 1) = rest.head? := by
        rw [show (((n + 1 + u.length : Nat) : Int) + 1) = ((n + 1 + (u.length + 1) : Nat) : Int)
              from by push_cast; ring]
        rw [pyIndex_natCast]
        rw [show n + 1 + (u.length + 1) = (n + 1) + (u.length + 1) from by omega]
        rw [get?_of_drop hdrop, get?_append_add (k := 1)]
        cases rest <;> rfl
      rw [scanEnd_succ, he', hindex]
      cases hr : rest with
      | nil => rfl
      | cons c rest' =>
        have hc : ¬ c = 32 := fun h => hrest (by rw [hr, h]; rfl)
        show (if c = 32 then scanEnd raw f ((n + 1 + u.length : Nat) : Int)
              else Except.ok ((n + 1 + u.length : Nat) : Int)) = _
        rw [if_neg hc]
        simp
    | some j =>
      have h32 : u.get? (j + 1) = some 32 := noLoneNl_split hu hfind
      have hj1 : j + 1 < u.length := get?_some_lt h32
      have hbf : byteFind 10 (u ++ 10 :: rest) = some j := byteFind_append_some hfind
      have he' : pyFind raw 10 ((n : Int) + 1) = ((n + 1 + j : Nat) : Int) := by
        rw [hcast, pyFind_natCast, pyFindNat_drop hdrop, hbf]
      have hindex : pyIndex raw (((n + 1 + j : Nat) : Int) + 1) = some 32 := by
        rw [show (((n + 1 + j : Nat) : Int) + 1) = ((n + 1 + (j + 1) : Nat) : Int)
              from by push_cast; ring]
        rw [pyIndex_natCast]
        rw [show n + 1 + (j + 1) = (n + 1) + (j + 1) from by omega]
        rw [get?_of_drop hdrop, get?_append_lt hj1, h32]
      rw [scanEnd_succ, he', hindex]
      show (if (32 : Nat) = 32 then scanEnd raw f ((n + 1 + j : Nat) : Int)
            else Except.ok ((n + 1 + j : Nat) : Int)) = _
      rw [if_pos rfl]
      have hdrop' : raw.drop ((n + 1 + j) + 1) = u.drop (j + 1) ++ 10 :: rest := by
        rw [show (n + 1 + j) + 1 = (n + 1) + (j + 1) from by omega]
        rw [← List.drop_drop, hdrop, List.drop_append_of_le_length (by omega)]
      have hres := ih (noLoneNl_drop (j + 1) hu) hdrop'
        (by rw [List.length_drop]; omega)
      rw [hres]
      have hlen : (n + 1 + j) + 1 + (u.drop (j + 1)).length = n + 1 + u.length := by
        rw [List.length_drop]; omega
      rw [hlen]

/-! ## Lemmas: ordered-dict operations -/

theorem lookupRec_eq_none {r : Record} {k : Bytes} :
    lookupRec r k = none ↔ k ∉ r.map Prod.fst := by
  induction r with
  | nil => simp [lookupRec]
  | cons p rest ih =>
    obtain ⟨k', v'⟩ := p
    by_cases hk : k' = k
    · subst hk; simp [lookupRec]
    · simp [lookupRec, hk, ih, Ne.symm hk]

theorem lookupRec_append_none {r : Record} {k : Bytes} (h : lookupRec r k = none)
    (tail : Record) : lookupRec (r ++ tail) k = lookupRec tail k := by
  induction r with
  | nil => rfl
  | cons p rest ih =>
    obtain ⟨k', v'⟩ := p
    by_cases hk : k' = k
    · subst hk; simp [lookupRec] at h
    · simp only [lookupRec, hk, if_false] at h
      simp only [List.cons_append, lookupRec, hk, if_false]
      exact ih h

theorem lookupRec_cons_self {k : Bytes} {v : KVal} {rest : Record} :
    lookupRec ((k, v) :: rest) k = some v := by
  simp [lookupRec]

theorem setRec_fresh {r : Record} {k : Bytes} (h : lookupRec r k = none) (v : KVal) :
    setRec r k v = r ++ [(k, v)] := by
  induction r with
  | nil => rfl
  | cons p rest ih =>
    obtain ⟨k', v'⟩ := p
    by_cases hk : k' = k
    · subst hk; simp [lookupRec] at h
    · simp only [lookupRec, hk, if_false] at h
      simp only [setRec, hk, if_false, List.cons_append]
      rw [ih h]

theorem setRec_cons {k' : Bytes} {w' : KVal} {rest : Record} {k : Bytes} {v : KVal} :
    setRec ((k', w') :: rest) k v =
      if k' = k then (k', v) :: rest else (k', w') :: setRec rest k v := rfl

theorem setRec_append_self {r : Record} {k : Bytes} (h : lookupRec r k = none)
    (w v : KVal) (tail : Record) :
    setRec (r ++ (k, w) :: tail) k v = r ++ (k, v) :: tail := by
  induction r with
  | nil => simp [setRec_cons]
  | cons p rest ih =>
    obtain ⟨k', v'⟩ := p
    by_cases hk : k' = k
    · subst hk; simp [lookupRec] at h
    · simp only [lookupRec, hk, if_false] at h
      rw [List.cons_append, setRec_cons, if_neg hk, ih h, List.cons_append]

theorem dctAdd_fresh {dct : Record} {k : Bytes} (h : lookupRec dct k = none) (v : Bytes) :
    dctAdd dct k v = dct ++ [(k, .scalar v)] := by
  rw [dctAdd, h]

theorem dctAdd_of_scalar {dct : Record} {k old : Bytes}
    (h : lookupRec dct k = some (.scalar old)) (x : Bytes) :
    dctAdd dct k x = setRec dct k (.arr [old, x]) := by
  rw [dctAdd, h]

theorem dctAdd_of_arr {dct : Record} {k : Bytes} {vs : List Bytes}
    (h : lookupRec dct k = some (.arr vs)) (x : Bytes) :
    dctAdd dct k x = setRec dct k (.arr (vs ++ [x])) := by
  rw [dctAdd, h]



theorem lookupRec_append_cons_self {r : Record} {k : Bytes}
    (h : lookupRec r k = none) (v : KVal) (tail : Record) :
    lookupRec (r ++ (k, v) :: tail) k = some v := by
  rw [lookupRec_append_none h, lookupRec_cons_self]

theorem addVals_arr {dct : Record} {k : Bytes} (h : lookupRec dct k = none)
    (v w : Bytes) (ws vs : List Bytes) :
    addVals (dct ++ [(k, .arr (v :: w :: ws))]) k vs
      = dct ++ [(k, .arr ((v :: w :: ws) ++ vs))] := by
  induction vs generalizing ws with
  | nil => simp [addVals]
  | cons x xs ih =>
    show addVals (dctAdd (dct ++ [(k, .arr (v :: w :: ws))]) k x) k xs = _
    rw [dctAdd_of_arr (lookupRec_append_cons_self h _ _) x, setRec_append_self h]
    have := ih (ws ++ [x])
    simp only [List.cons_append] at this ⊢
    rw [this]
    simp

theorem addVals_collapse {dct : Record} {k : Bytes} (h : lookupRec dct k = none)
    (v : Bytes) (vs : List Bytes) :
    addVals dct k (v :: vs) = dct ++ [(k, collapseVals v vs)] := by
  show addVals (dctAdd dct k v) k vs = _
  rw [dctAdd_fresh h]
  cases vs with
  | nil => simp [addVals, collapseVals]
  | cons w ws =>
    show addVals (dctAdd (dct ++ [(k, .scalar v)]) k w) k ws = _
    rw [dctAdd_of_scalar (lookupRec_append_cons_self h _ _) w, setRec_append_self h]
    rw [show (KVal.arr [v, w]) = KVal.arr (v :: w :: []) from rfl]
    rw [addVals_arr h]
    rfl

/-! ## Lemmas: single parse steps of `kvlm_parse_go` -/

theorem kvlm_parse_go_succ (raw : Bytes) (fuel start : Nat) (dct : Record) :
    kvlm_parse_go raw (fuel + 1) start dct =
      if pyFind raw 32 (start : Int) < 0 ∨ pyFind raw 10 (start : Int) < pyFind raw 32 (start : Int) then
        if pyFind raw 10 (start : Int) = (start : Int) then
          .ok (setRec dct [] (.scalar (pySlice raw ((start : Int) + 1) (raw.length : Int))))
        else .error .assertFail
      else
        match scanEnd raw (2 * raw.length + 2) (start : Int) with
        | .error e => .error e
        | .ok e =>
          kvlm_parse_go raw fuel (e + 1).toNat
            (dctAdd dct (pySlice raw (start : Int) (pyFind raw 32 (start : Int)))
              (replCont (pySlice raw (pyFind raw 32 (start : Int) + 1) e))) := rfl

theorem drop_succ_of_drop {raw u : Bytes} {s : Nat} (h : raw.drop s = u) :
    raw.drop (s + 1) = u.drop 1 := by
  rw [← h, List.drop_drop]

/-- Parsing at a blank line: the base case of `kvlm_parse` stores the
remainder as the message under the empty key. -/
theorem parse_blank {raw m : Bytes} {start : Nat} (hdrop : raw.drop start = 10 :: m)
    (dct : Record) (fuel : Nat) :
    kvlm_parse_go raw (fuel + 1) start dct = .ok (setRec dct [] (.scalar m)) := by
  have hnl : pyFind raw 10 (start : Int) = (start : Int) := by
    rw [pyFind_natCast, pyFindNat_drop hdrop, byteFind_cons_self]
    simp
  have hcond : pyFind raw 32 (start : Int) < 0 ∨
      pyFind raw 10 (start : Int) < pyFind raw 32 (start : Int) := by
    cases hm : byteFind 32 m with
    | none =>
      have h32 : pyFind raw 32 (start : Int) = -1 := by
        rw [pyFind_natCast, pyFindNat_drop hdrop, byteFind_cons, if_neg (by omega), hm]
        rfl
      left
      rw [h32]
      norm_num
    | some j =>
      have h32 : pyFind raw 32 (start : Int) = ((start + (j + 1) : Nat) : Int) := by
        rw [pyFind_natCast, pyFindNat_drop hdrop, byteFind_cons, if_neg (by omega), hm]
        rfl
      right
      rw [hnl, h32]
      push_cast
      omega
  have hmsg : pySlice raw ((start : Int) + 1) (raw.length : Int) = m := by
    have h1 : raw.drop (start + 1) = m := by
      rw [drop_succ_of_drop hdrop]; rfl
    have hlen : raw.length - (start + 1) = m.length := by
      rw [← h1, List.length_drop]
    rw [show ((start : Int) + 1) = ((start + 1 : Nat) : Int) from by push_cast; ring]
    rw [pySlice_nat, h1, hlen]
    exact List.take_length m
  rw [kvlm_parse_go_succ, if_pos hcond, if_pos hnl, hmsg]

/-- Parsing one field line `k ++ b' ' ++ v' ++ b'\n'` (with `v'` a folded
value: every newline inside it is followed by a space): the parser reads
key `k`, unfolds `v'`, and continues after the line; when nothing follows
the line, the continuation scan runs off the end with an `IndexError`. -/
theorem parse_line {raw : Bytes} {start : Nat} {k v' rest : Bytes} {dct : Record} {fuel : Nat}
    (hdrop : raw.drop start = k ++ [32] ++ v' ++ [10] ++ rest)
    (hk : k ≠ []) (hk32 : 32 ∉ k) (hk10 : 10 ∉ k)
    (hv : NoLoneNl v') (hrest : rest.head? ≠ some 32) :
    kvlm_parse_go raw (fuel + 1) start dct =
      if rest = [] then .error .indexError
      else kvlm_parse_go raw fuel (start + k.length + 1 + v'.length + 1)
        (dctAdd dct k (replCont v')) := by
  have hdrop' : raw.drop start = k ++ 32 :: (v' ++ 10 :: rest) := by
    rw [hdrop]; simp
  have hspc : pyFind raw 32 (start : Int) = ((start + k.length : Nat) : Int) := by
    rw [pyFind_natCast, pyFindNat_drop hdrop', byteFind_append_left hk32, byteFind_cons_self]
    simp
  obtain ⟨j₀, hj₀, hj₀le⟩ :
      ∃ j₀, byteFind 10 (v' ++ 10 :: rest) = some j₀ ∧ j₀ ≤ v'.length := by
    cases hfv : byteFind 10 v' with
    | some j => exact ⟨j, byteFind_append_some hfv, Nat.le_of_lt (byteFind_lt_length hfv)⟩
    | none =>
      refine ⟨v'.length, ?_, Nat.le_refl _⟩
      rw [byteFind_append_left (byteFind_eq_none.mp hfv), byteFind_cons_self]
      simp
  have hnl : pyFind raw 10 (start : Int) = ((start + (j₀ + 1 + k.length) : Nat) : Int) := by
    rw [pyFind_natCast, pyFindNat_drop hdrop', byteFind_append_left hk10, byteFind_cons,
      if_neg (by omega), hj₀]
    rfl
  have hcond : ¬ (pyFind raw 32 (start : Int) < 0 ∨
      pyFind raw 10 (start : Int) < pyFind raw 32 (start : Int)) := by
    rw [hspc, hnl]
    push_neg
    refine ⟨by omega, by push_cast; omega⟩
  have hkey : pySlice raw (start : Int) (pyFind raw 32 (start : Int)) = k := by
    rw [hspc, pySlice_of_drop hdrop']
    exact List.take_left k _
  -- the continuation scan runs over the rest of the key, the space and the value
  have hk' : ∃ k0 ks, k = k0 :: ks := by
    cases k with
    | nil => exact absurd rfl hk
    | cons k0 ks => exact ⟨k0, ks, rfl⟩
  obtain ⟨k0, ks, rfl⟩ := hk'
  have hks10 : 10 ∉ ks := fun hm => hk10 (List.mem_cons_of_mem k0 hm)
  have hdropsucc : raw.drop (start + 1) = (ks ++ 32 :: v') ++ 10 :: rest := by
    rw [drop_succ_of_drop hdrop']
    simp
  have hu : NoLoneNl (ks ++ 32 :: v') :=
    noLoneNl_append hks10 (noLoneNl_cons (Or.inl (by omega)) hv)
  have hulen : (ks ++ 32 :: v').length < 2 * raw.length + 2 := by
    have : raw.length - (start + 1) = ((ks ++ 32 :: v') ++ 10 :: rest).length := by
      rw [← hdropsucc, List.length_drop]
    simp only [List.length_append, List.length_cons] at this ⊢
    omega
  have hscan := scanEnd_spec hu hdropsucc hrest hulen
  have hval : replCont (pySlice raw (pyFind raw 32 (start : Int) + 1)
      ((start + 1 + (ks ++ 32 :: v').length : Nat) : Int)) = replCont v' := by
    rw [hspc]
    rw [show (((start + (k0 :: ks).length : Nat) : Int) + 1)
          = ((start + (k0 :: ks).length + 1 : Nat) : Int) from by push_cast; ring]
    have hdropval : raw.drop (start + (k0 :: ks).length + 1) = v' ++ 10 :: rest := by
      rw [show start + (k0 :: ks).length + 1 = start + ((k0 :: ks) ++ [32]).length
            from by simp only [List.length_append, List.length_cons, List.length_nil]; omega]
      rw [← List.drop_drop, hdrop']
      rw [show (k0 :: ks) ++ 32 :: (v' ++ 10 :: rest) = ((k0 :: ks) ++ [32]) ++ (v' ++ 10 :: rest)
            from by simp]
      rw [List.drop_left]
    have : start + 1 + (ks ++ 32 :: v').length
        = (start + (k0 :: ks).length + 1) + v'.length := by
      simp only [List.length_append, List.length_cons, List.length_nil]
      omega
    rw [this, pySlice_of_drop hdropval, List.take_left v' _]
  rw [kvlm_parse_go_succ, if_neg hcond, hscan]
  cases hr : rest with
  | nil => rfl
  | cons c rest' =>
    have hne : ¬ (c :: rest' : Bytes) = [] := by simp
    rw [if_neg hne, if_neg hne]
    have harg : ((((start + 1 + (ks ++ 32 :: v').length : Nat) : Int)) + 1).toNat
        = start + (k0 :: ks).length + 1 + v'.length + 1 := by
      push_cast
      simp only [List.length_append, List.length_cons, List.length_nil]
      omega
    show kvlm_parse_go raw fuel ((((start + 1 + (ks ++ 32 :: v').length : Nat) : Int)) + 1).toNat
        (dctAdd dct (pySlice raw (start : Int) (pyFind raw 32 (start : Int)))
          (replCont (pySlice raw (pyFind raw 32 (start : Int) + 1)
            ((start + 1 + (ks ++ 32 :: v').length : Nat) : Int)))) = _
    rw [hkey, hval, harg]

/-! ## Lemmas: whole-field and whole-record parsing of serialized text -/




theorem head?_append_of_ne {a b : Bytes} (h : a ≠ []) : (a ++ b).head? = a.head? := by
  cases a with
  | nil => exact absurd rfl h
  | cons x xs => rfl

theorem head?_mem {l : Bytes} {c : Nat} (h : l.head? = some c) : c ∈ l := by
  cases l with
  | nil => cases h
  | cons x xs =>
    injection h with h
    exact h ▸ List.mem_cons_self x xs

theorem addVals_valList {dct : Record} {k : Bytes} {val : KVal}
    (h : lookupRec dct k = none) (hval : wfVal val) :
    addVals dct k (valList val) = dct ++ [(k, val)] := by
  cases val with
  | scalar v => rw [show valList (.scalar v) = [v] from rfl, addVals_collapse h]; rfl
  | arr vs =>
    match vs, hval with
    | v :: w :: ws, _ =>
      rw [show valList (.arr (v :: w :: ws)) = v :: w :: ws from rfl, addVals_collapse h]
      rfl

/-- Parsing the consecutive serialized lines of one field accumulates
exactly that field's values into the dict. -/
theorem parse_vals {raw : Bytes} {k : Bytes} {vs : List Bytes} {rest : Bytes}
    (hk : k ≠ []) (hk32 : 32 ∉ k) (hk10 : 10 ∉ k)
    (hrest : rest.head? ≠ some 32) (hrestne : rest ≠ []) :
    ∀ {start fuel : Nat} {dct : Record},
    raw.drop start = (vs.map (serLine k)).flatten ++ rest →
    kvlm_parse_go raw (fuel + vs.length) start dct =
      kvlm_parse_go raw fuel (start + ((vs.map (serLine k)).flatten).length)
        (addVals dct k vs) := by
  induction vs with
  | nil =>
    intro start fuel dct _
    simp [addVals]
  | cons v vs' ih =>
    intro start fuel dct hdrop
    have hline : raw.drop start
        = k ++ [32] ++ replExp v ++ [10] ++ ((vs'.map (serLine k)).flatten ++ rest) := by
      rw [hdrop]
      simp [serLine, List.append_assoc]
    have hrest' : ((vs'.map (serLine k)).flatten ++ rest) ≠ [] := by
      cases vs' <;> simp [hrestne, serLine]
    have hrest'h : ((vs'.map (serLine k)).flatten ++ rest).head? ≠ some 32 := by
      cases vs' with
      | nil => simpa using hrest
      | cons w ws =>
        rw [show ((w :: ws).map (serLine k)).flatten ++ rest
              = serLine k w ++ (((ws.map (serLine k)).flatten) ++ rest) from by simp]
        rw [head?_append_of_ne (by simp [serLine, hk]), serLine]
        simp only [List.append_assoc]
        rw [head?_append_of_ne hk]
        intro hmem
        exact hk32 (head?_mem hmem)
    have hstep := @parse_line raw start k (replExp v) ((vs'.map (serLine k)).flatten ++ rest)
      dct (fuel + vs'.length) hline hk hk32 hk10 (noLoneNl_replExp v) hrest'h
    rw [if_neg hrest'] at hstep
    rw [show fuel + (v :: vs').length = (fuel + vs'.length) + 1 from by simp; omega]
    rw [hstep, replCont_replExp]
    have hdrop2 : raw.drop (start + k.length + 1 + (replExp v).length + 1)
        = (vs'.map (serLine k)).flatten ++ rest := by
      rw [show start + k.length + 1 + (replExp v).length + 1
            = start + (serLine k v).length from by simp [serLine]; omega]
      rw [← List.drop_drop, hdrop]
      rw [show ((v :: vs').map (serLine k)).flatten ++ rest
            = serLine k v ++ ((vs'.map (serLine k)).flatten ++ rest) from by simp]
      rw [List.drop_left]
    rw [ih hdrop2]
    have harith : start + k.length + 1 + (replExp v).length + 1
        + ((vs'.map (serLine k)).flatten).length
        = start + (((v :: vs').map (serLine k)).flatten).length := by
      simp [serLine]
      omega
    rw [harith]
    rfl

theorem lookupRec_append_single_ne {dct : Record} {k p : Bytes}
    (h : lookupRec dct p = none) {val : KVal} (hne : k ≠ p) :
    lookupRec (dct ++ [(k, val)]) p = none := by
  rw [lookupRec_append_none h]
  simp [lookupRec, hne]

/-- The serialized fields followed by the blank line start with a byte
that is not a space (the next key's first byte, or the newline). -/
theorem serFields_head_ne {fields : Record} {m : Bytes}
    (hwf : ∀ p ∈ fields, wfKey p.1 ∧ wfVal p.2) :
    (serFields fields ++ 10 :: m).head? ≠ some 32 ∧ serFields fields ++ 10 :: m ≠ [] := by
  refine ⟨?_, by simp⟩
  induction fields with
  | nil => simp [serFields]
  | cons p rest ih =>
    obtain ⟨k, val⟩ := p
    obtain ⟨⟨hk, hk32, _⟩, hval⟩ := hwf (k, val) (List.mem_cons_self _ _)
    rw [show serFields ((k, val) :: rest) = ((valList val).map (serLine k)).flatten ++ serFields rest
          from by rw [serFields, if_neg hk]]
    have hvl : valList val ≠ [] := by
      cases val with
      | scalar v => simp [valList]
      | arr vs =>
        have : 2 ≤ vs.length := hval
        cases vs with
        | nil => simp at this
        | cons a l => simp [valList]
    cases hv : valList val with
    | nil => exact absurd hv hvl
    | cons w ws =>
      rw [show (((w :: ws).map (serLine k)).flatten ++ serFields rest) ++ 10 :: m
            = serLine k w ++ (((ws.map (serLine k)).flatten ++ serFields rest) ++ 10 :: m)
            from by simp]
      rw [head?_append_of_ne (by simp [serLine, hk]), serLine]
      simp only [List.append_assoc]
      rw [head?_append_of_ne hk]
      intro hmem
      exact hk32 (head?_mem hmem)

/-- Parsing the full serialization of a field list followed by the blank
line and message reconstructs exactly those fields and the message. -/
theorem parse_fields {raw m : Bytes} :
    ∀ {fields : Record} {start fuel : Nat} {dct : Record},
    raw.drop start = serFields fields ++ 10 :: m →
    (∀ p ∈ fields, wfKey p.1 ∧ wfVal p.2) →
    (fields.map Prod.fst).Nodup →
    (∀ p ∈ fields, lookupRec dct p.1 = none) →
    lookupRec dct [] = none →
    kvlm_parse_go raw (fuel + numLines fields + 1) start dct
      = .ok (dct ++ fields ++ [([], .scalar m)]) := by
  intro fields
  induction fields with
  | nil =>
    intro start fuel dct hdrop _ _ _ hmsg
    rw [show serFields [] ++ 10 :: m = 10 :: m from rfl] at hdrop
    rw [show fuel + numLines [] + 1 = fuel + 1 from rfl]
    rw [parse_blank hdrop dct fuel, setRec_fresh hmsg]
    simp
  | cons p fields' ih =>
    intro start fuel dct hdrop hwf hkeys hdisj hmsg
    obtain ⟨k, val⟩ := p
    obtain ⟨⟨hk, hk32, hk10⟩, hval⟩ := hwf (k, val) (List.mem_cons_self _ _)
    have hser : serFields ((k, val) :: fields')
        = ((valList val).map (serLine k)).flatten ++ serFields fields' := by
      rw [serFields, if_neg hk]
    obtain ⟨hresth, hrestne⟩ := serFields_head_ne (m := m)
      (fun p hp => hwf p (List.mem_cons_of_mem _ hp))
    have hdrop1 : raw.drop start
        = ((valList val).map (serLine k)).flatten ++ (serFields fields' ++ 10 :: m) := by
      rw [hdrop, hser, List.append_assoc]
    have hfuel : fuel + numLines ((k, val) :: fields') + 1
        = (fuel + numLines fields' + 1) + (valList val).length := by
      rw [numLines]; omega
    rw [hfuel]
    rw [parse_vals hk hk32 hk10 hresth hrestne hdrop1]
    rw [addVals_valList (hdisj (k, val) (List.mem_cons_self _ _)) hval]
    have hdrop2 : raw.drop (start + (((valList val).map (serLine k)).flatten).length)
        = serFields fields' ++ 10 :: m := by
      rw [← List.drop_drop, hdrop1, List.drop_left]
    have hkeys' : (fields'.map Prod.fst).Nodup := (List.nodup_cons.mp hkeys).2
    have hknotin : k ∉ fields'.map Prod.fst := (List.nodup_cons.mp hkeys).1
    have hdisj' : ∀ p ∈ fields', lookupRec (dct ++ [(k, val)]) p.1 = none := by
      intro p hp
      refine lookupRec_append_single_ne (hdisj p (List.mem_cons_of_mem _ hp)) ?_
      intro hkp
      exact hknotin (hkp ▸ List.mem_map_of_mem Prod.fst hp)
    have hmsg' : lookupRec (dct ++ [(k, val)]) [] = none :=
      lookupRec_append_single_ne hmsg hk
    rw [ih hdrop2 (fun p hp => hwf p (List.mem_cons_of_mem _ hp)) hkeys' hdisj' hmsg']
    simp

/-! ## Lemmas: shape invariant of parser output -/


theorem lookupRec_mem {r : Record} {k : Bytes} {w : KVal}
    (h : lookupRec r k = some w) : (k, w) ∈ r := by
  induction r with
  | nil => cases h
  | cons p rest ih =>
    obtain ⟨k', v'⟩ := p
    by_cases hk : k' = k
    · subst hk
      rw [lookupRec_cons_self] at h
      injection h with h
      exact h ▸ List.mem_cons_self _ _
    · rw [show lookupRec ((k', v') :: rest) k = lookupRec rest k from by
        simp [lookupRec, hk]] at h
      exact List.mem_cons_of_mem _ (ih h)

theorem setRec_subset {r : Record} {k : Bytes} {v : KVal} :
    ∀ p ∈ setRec r k v, p = (k, v) ∨ p ∈ r := by
  induction r with
  | nil =>
    intro p hp
    simp only [setRec] at hp
    simp at hp
    exact Or.inl hp
  | cons q rest ih =>
    obtain ⟨k', v'⟩ := q
    intro p hp
    rw [setRec_cons] at hp
    by_cases hk : k' = k
    · rw [if_pos hk] at hp
      rcases List.mem_cons.mp hp with hp | hp
      · exact Or.inl (by rw [hp, hk])
      · exact Or.inr (List.mem_cons_of_mem _ hp)
    · rw [if_neg hk] at hp
      rcases List.mem_cons.mp hp with hp | hp
      · exact Or.inr (hp ▸ List.mem_cons_self _ _)
      · rcases ih p hp with hp' | hp'
        · exact Or.inl hp'
        · exact Or.inr (List.mem_cons_of_mem _ hp')

theorem setRec_keys_of_lookup {r : Record} {k : Bytes} {w v : KVal}
    (h : lookupRec r k = some w) :
    (setRec r k v).map Prod.fst = r.map Prod.fst := by
  induction r with
  | nil => cases h
  | cons q rest ih =>
    obtain ⟨k', v'⟩ := q
    rw [setRec_cons]
    by_cases hk : k' = k
    · rw [if_pos hk]; simp
    · rw [if_neg hk]
      rw [show lookupRec ((k', v') :: rest) k = lookupRec rest k from by
        simp [lookupRec, hk]] at h
      simp [ih h]

theorem lookupRec_setRec_self {r : Record} {k : Bytes} {v : KVal} :
    lookupRec (setRec r k v) k = some v := by
  induction r with
  | nil => simp [setRec, lookupRec]
  | cons q rest ih =>
    obtain ⟨k', v'⟩ := q
    rw [setRec_cons]
    by_cases hk : k' = k
    · rw [if_pos hk, hk, lookupRec_cons_self]
    · rw [if_neg hk]
      rw [show lookupRec ((k', v') :: setRec rest k v) k = lookupRec (setRec rest k v) k
            from by simp [lookupRec, hk]]
      exact ih

theorem setRec_wf {r : Record} {k : Bytes} {v : KVal} (hr : WfLoose r)
    (hk : k = [] ∨ wfKey k) (hv : wfVal v) : WfLoose (setRec r k v) := by
  cases hlook : lookupRec r k with
  | none =>
    rw [setRec_fresh hlook]
    constructor
    · rw [List.map_append]
      rw [List.nodup_append]
      refine ⟨hr.1, by simp, ?_⟩
      intro a ha hb
      simp at hb
      subst hb
      exact (lookupRec_eq_none.mp hlook) ha
    · intro p hp
      rcases List.mem_append.mp hp with hp | hp
      · exact hr.2 p hp
      · simp at hp
        subst hp
        exact ⟨hk, hv⟩
  | some w =>
    constructor
    · rw [setRec_keys_of_lookup hlook]
      exact hr.1
    · intro p hp
      rcases setRec_subset p hp with hp | hp
      · subst hp
        exact ⟨hk, hv⟩
      · exact hr.2 p hp

theorem dctAdd_wf {dct : Record} {k value : Bytes} (hd : WfLoose dct)
    (hk : k = [] ∨ wfKey k) : WfLoose (dctAdd dct k value) := by
  cases hlook : lookupRec dct k with
  | none =>
    rw [dctAdd_fresh hlook]
    have := setRec_wf (v := .scalar value) hd hk trivial
    rwa [setRec_fresh hlook] at this
  | some w =>
    cases w with
    | scalar old =>
      rw [dctAdd_of_scalar hlook]
      exact setRec_wf hd hk (by simp [wfVal])
    | arr vs =>
      rw [dctAdd_of_arr hlook]
      have hvs : 2 ≤ vs.length := (hd.2 (k, .arr vs) (lookupRec_mem hlook)).2
      refine setRec_wf hd hk ?_
      show 2 ≤ (vs ++ [value]).length
      rw [List.length_append]
      omega

theorem not_mem_take_of_le {c : Nat} {l : Bytes} {i j : Nat}
    (h : c ∉ l.take j) (hij : i ≤ j) : c ∉ l.take i := by
  intro hc
  refine h ?_
  have : l.take i = (l.take j).take i := by
    rw [List.take_take, Nat.min_eq_left hij]
  rw [this] at hc
  exact List.take_subset _ _ hc

/-- Every successful run of `kvlm_parse_go` from a well-shaped dict
produces a well-shaped record whose message key holds plain bytes. -/
theorem kvlm_parse_go_wf {raw : Bytes} :
    ∀ {fuel start : Nat} {dct r : Record},
    kvlm_parse_go raw fuel start dct = .ok r → WfLoose dct →
    WfLoose r ∧ ∃ mv, lookupRec r [] = some (.scalar mv) := by
  intro fuel
  induction fuel with
  | zero => intro start dct r h; cases h
  | succ fuel ih =>
    intro start dct r h hd
    rw [kvlm_parse_go_succ] at h
    by_cases hc1 : pyFind raw 32 (start : Int) < 0 ∨
        pyFind raw 10 (start : Int) < pyFind raw 32 (start : Int)
    · rw [if_pos hc1] at h
      by_cases hc2 : pyFind raw 10 (start : Int) = (start : Int)
      · rw [if_pos hc2] at h
        injection h with h
        subst h
        refine ⟨setRec_wf hd (Or.inl rfl) trivial, _, lookupRec_setRec_self⟩
      · rw [if_neg hc2] at h
        exact Except.noConfusion h
    · rw [if_neg hc1] at h
      push_neg at hc1
      obtain ⟨hs0, hns⟩ := hc1
      cases hscan : scanEnd raw (2 * raw.length + 2) (start : Int) with
      | error e =>
        rw [hscan] at h
        exact Except.noConfusion h
      | ok e =>
        rw [hscan] at h
        refine ih h (dctAdd_wf hd ?_)
        -- the key contains neither a space nor a newline
        cases hbf32 : byteFind 32 (raw.drop start) with
        | none =>
          exfalso
          rw [pyFind_natCast, pyFindNat_none hbf32] at hs0
          omega
        | some j =>
          have hspc : pyFind raw 32 (start : Int) = ((start + j : Nat) : Int) := by
            rw [pyFind_natCast, pyFindNat_some hbf32]
          have hkeyeq : pySlice raw (start : Int) (pyFind raw 32 (start : Int))
              = (raw.drop start).take j := by
            rw [hspc, pySlice_of_drop rfl]
          rw [hkeyeq]
          by_cases hkey0 : (raw.drop start).take j = ([] : Bytes)
          · exact Or.inl hkey0
          · refine Or.inr ⟨hkey0, byteFind_not_mem_take hbf32, ?_⟩
            cases hbf10 : byteFind 10 (raw.drop start) with
            | none =>
              exfalso
              rw [pyFind_natCast (c := 10), pyFindNat_none hbf10, hspc] at hns
              omega
            | some j2 =>
              have hj2 : j ≤ j2 := by
                rw [pyFind_natCast (c := 10), pyFindNat_some hbf10, hspc] at hns
                omega
              exact not_mem_take_of_le (byteFind_not_mem_take hbf10) hj2

/-! ## Lemmas: serializing and re-parsing a well-shaped record -/

theorem serFields_append (a b : Record) :
    serFields (a ++ b) = serFields a ++ serFields b := by
  induction a with
  | nil => rfl
  | cons p rest ih =>
    obtain ⟨k, val⟩ := p
    by_cases hk : k = []
    · rw [List.cons_append, serFields, if_pos hk, ih, serFields, if_pos hk]
    · rw [List.cons_append, serFields, if_neg hk, ih, serFields, if_neg hk,
        List.append_assoc]

theorem le_length_flatten_lines (k : Bytes) (vs : List Bytes) :
    vs.length ≤ ((vs.map (serLine k)).flatten).length := by
  induction vs with
  | nil => simp
  | cons v vs' ih =>
    simp only [List.map_cons, List.flatten_cons, List.length_append, List.length_cons]
    have : 1 ≤ (serLine k v).length := by
      simp only [serLine, List.length_append, List.length_cons, List.length_nil]
      omega
    omega

theorem numLines_le {fields : Record} (h : ∀ p ∈ fields, p.1 ≠ []) :
    numLines fields ≤ (serFields fields).length := by
  induction fields with
  | nil => simp [numLines, serFields]
  | cons p rest ih =>
    obtain ⟨k, val⟩ := p
    have hk : k ≠ [] := h (k, val) (List.mem_cons_self _ _)
    rw [numLines, serFields, if_neg hk, List.length_append]
    have h1 := le_length_flatten_lines k (valList val)
    have h2 := ih (fun p hp => h p (List.mem_cons_of_mem _ hp))
    omega

/-- Round trip for a record whose message key comes last: serializing and
re-parsing a well-shaped record with `b''` as its final key recovers it
exactly. -/
theorem kvlm_serialize_parse {r : Record} (hr : WfLoose r)
    (hmsg : ∃ mv, lookupRec r [] = some (.scalar mv))
    (hlast : (r.map Prod.fst).getLast? = some []) :
    ∃ s, kvlm_serialize r = .ok s ∧ kvlm_parse s = .ok r := by
  obtain ⟨mv, hmv⟩ := hmsg
  have hne : r ≠ [] := by
    intro h
    subst h
    cases hmv
  have hdecomp : r.dropLast ++ [r.getLast hne] = r := List.dropLast_append_getLast hne
  have hlast1 : (r.getLast hne).1 = [] := by
    rw [List.getLast?_map, List.getLast?_eq_getLast r hne] at hlast
    simpa using hlast
  have hkeys : r.map Prod.fst = r.dropLast.map Prod.fst ++ [[]] := by
    conv_lhs => rw [← hdecomp]
    rw [List.map_append]
    simp only [List.map_cons, List.map_nil]
    rw [hlast1]
  have hnotin : ([] : Bytes) ∉ r.dropLast.map Prod.fst := by
    have := hr.1
    rw [hkeys] at this
    rw [List.nodup_append] at this
    intro hmem
    exact this.2.2 hmem (by simp)
  have hlookdl : lookupRec r.dropLast [] = none := lookupRec_eq_none.mpr hnotin
  have hlast2 : r.getLast hne = ([], .scalar mv) := by
    have : lookupRec r [] = some (r.getLast hne).2 := by
      conv_lhs => rw [← hdecomp]
      rw [show (r.getLast hne : Bytes × KVal) = ([], (r.getLast hne).2) from by
        rw [← hlast1]]
      exact lookupRec_append_cons_self hlookdl _ _
    rw [hmv] at this
    injection this with this
    rw [show (r.getLast hne : Bytes × KVal) = ((r.getLast hne).1, (r.getLast hne).2) from rfl,
      hlast1, ← this]
  have hserf : serFields r = serFields r.dropLast := by
    conv_lhs => rw [← hdecomp]
    rw [serFields_append, hlast2]
    rw [show serFields [([], KVal.scalar mv)] = [] from rfl, List.append_nil]
  have hser : kvlm_serialize r = .ok (serFields r.dropLast ++ 10 :: mv) := by
    rw [kvlm_serialize, hmv]
    show Except.ok (serFields r ++ [10] ++ mv) = _
    rw [hserf, List.append_assoc]
    rfl
  refine ⟨serFields r.dropLast ++ 10 :: mv, hser, ?_⟩
  -- re-parse the serialized text
  have hwff : ∀ p ∈ r.dropLast, wfKey p.1 ∧ wfVal p.2 := by
    intro p hp
    have hpr : p ∈ r := by
      rw [← hdecomp]
      exact List.mem_append.mpr (Or.inl hp)
    have hpne : p.1 ≠ [] := by
      intro h0
      exact hnotin (h0 ▸ List.mem_map_of_mem Prod.fst hp)
    rcases (hr.2 p hpr).1 with h | h
    · exact absurd h hpne
    · exact ⟨h, (hr.2 p hpr).2⟩
  have hnodup : (r.dropLast.map Prod.fst).Nodup := by
    have := hr.1
    rw [hkeys, List.nodup_append] at this
    exact this.1
  have hnl : numLines r.dropLast ≤ (serFields r.dropLast ++ 10 :: mv).length := by
    have h1 := numLines_le (fun p hp => (hwff p hp).1.1)
    rw [List.length_append]
    omega
  have hfuel : (serFields r.dropLast ++ 10 :: mv).length + 1
      = ((serFields r.dropLast ++ 10 :: mv).length - numLines r.dropLast)
        + numLines r.dropLast + 1 := by
    omega
  have hpf := @parse_fields (serFields r.dropLast ++ 10 :: mv) mv r.dropLast 0
    ((serFields r.dropLast ++ 10 :: mv).length - numLines r.dropLast) []
    (by rw [List.drop_zero]) hwff hnodup (fun p hp => rfl) rfl
  rw [kvlm_parse, hfuel, hpf, List.nil_append]
  rw [show (r.dropLast ++ [([], KVal.scalar mv)] : Record) = r from by rw [← hlast2, hdecomp]]

/-! ## Lemmas: inputs without a blank line make `kvlm_parse` fail -/


theorem parse_klines {raw : Bytes} :
    ∀ {ls : List (Bytes × Bytes)} {start fuel : Nat} {dct : Record},
    raw.drop start = klines ls →
    ls ≠ [] →
    (∀ p ∈ ls, wfKey p.1 ∧ 10 ∉ p.2) →
    kvlm_parse_go raw (fuel + ls.length) start dct = .error .indexError := by
  intro ls
  induction ls with
  | nil => intro start fuel dct _ hne _; exact absurd rfl hne
  | cons p ls' ih =>
    intro start fuel dct hdrop _ hwf
    obtain ⟨k, v⟩ := p
    obtain ⟨⟨hk, hk32, hk10⟩, hv10⟩ := hwf (k, v) (List.mem_cons_self _ _)
    have hvnl : NoLoneNl v := noLoneNl_of_not_mem hv10
    have hline : raw.drop start = k ++ [32] ++ v ++ [10] ++ klines ls' := by
      rw [hdrop, klines, List.map_cons, List.flatten_cons, klines]
    have hrh : (klines ls').head? ≠ some 32 := by
      cases ls' with
      | nil => simp [klines]
      | cons q ls'' =>
        obtain ⟨⟨hq, hq32, _⟩, _⟩ := hwf q (List.mem_cons_of_mem _ (List.mem_cons_self _ _))
        rw [klines, List.map_cons, List.flatten_cons]
        rw [show q.1 ++ [32] ++ q.2 ++ [10] ++ (List.map (fun p => p.1 ++ [32] ++ p.2 ++ [10]) ls'').flatten
              = q.1 ++ ([32] ++ q.2 ++ [10] ++ (List.map (fun p => p.1 ++ [32] ++ p.2 ++ [10]) ls'').flatten)
              from by simp [List.append_assoc]]
        rw [head?_append_of_ne hq]
        intro hmem
        exact hq32 (head?_mem hmem)
    have hstep := @parse_line raw start k v (klines ls') dct (fuel + ls'.length)
      hline hk hk32 hk10 hvnl hrh
    rw [show fuel + ((k, v) :: ls').length = (fuel + ls'.length) + 1 from by
      simp only [List.length_cons]; omega]
    rw [hstep]
    cases ls' with
    | nil => rw [if_pos (show klines ([] : List (Bytes × Bytes)) = [] from rfl)]
    | cons q ls'' =>
      have hklne : klines (q :: ls'') ≠ [] := by
        obtain ⟨⟨hq, _, _⟩, _⟩ := hwf q (List.mem_cons_of_mem _ (List.mem_cons_self _ _))
        simp [klines]
      rw [if_neg hklne]
      have hdrop2 : raw.drop (start + k.length + 1 + v.length + 1) = klines (q :: ls'') := by
        rw [show start + k.length + 1 + v.length + 1
              = start + (k ++ [32] ++ v ++ [10]).length from by
            simp only [List.length_append, List.length_cons, List.length_nil]; omega]
        rw [← List.drop_drop, hline, List.drop_left]
      exact ih hdrop2 (by simp)
        (fun p hp => hwf p (List.mem_cons_of_mem _ hp))

/-! ## Lemmas: decimal length header and frame parsing -/

theorem natToDecGo_digits : ∀ {fuel n : Nat}, n < fuel →
    ∀ c ∈ natToDecGo fuel n, 48 ≤ c ∧ c < 58 := by
  intro fuel
  induction fuel with
  | zero => intro n h; omega
  | succ fuel ih =>
    intro n _ c hc
    rw [natToDecGo] at hc
    by_cases hn : n < 10
    · rw [if_pos hn] at hc
      simp at hc
      omega
    · rw [if_neg hn] at hc
      rcases List.mem_append.mp hc with hc | hc
      · exact ih (by omega) c hc
      · simp at hc
        have := Nat.mod_lt n (show 0 < 10 from by omega)
        omega

theorem natToDecGo_ne : ∀ {fuel n : Nat}, n < fuel → natToDecGo fuel n ≠ [] := by
  intro fuel
  induction fuel with
  | zero => intro n h; omega
  | succ fuel _ =>
    intro n _
    rw [natToDecGo]
    by_cases hn : n < 10
    · rw [if_pos hn]; simp
    · rw [if_neg hn]; simp

theorem decParse_append_digit (a : Bytes) (d : Nat) :
    decParse (a ++ [d]) = decParse a * 10 + (d - 48) := by
  rw [decParse, decParse, List.foldl_append]
  rfl

theorem decParse_natToDecGo : ∀ {fuel n : Nat}, n < fuel →
    decParse (natToDecGo fuel n) = n := by
  intro fuel
  induction fuel with
  | zero => intro n h; omega
  | succ fuel ih =>
    intro n hn
    rw [natToDecGo]
    by_cases h10 : n < 10
    · rw [if_pos h10]
      show 0 * 10 + (48 + n - 48) = n
      omega
    · rw [if_neg h10, decParse_append_digit, ih (by omega)]
      have := Nat.div_add_mod n 10
      omega

theorem natToDec_digits {n : Nat} : ∀ c ∈ natToDec n, 48 ≤ c ∧ c < 58 :=
  natToDecGo_digits (Nat.lt_succ_self n)

theorem natToDec_ne (n : Nat) : natToDec n ≠ [] :=
  natToDecGo_ne (Nat.lt_succ_self n)

theorem decParse_natToDec (n : Nat) : decParse (natToDec n) = n :=
  decParse_natToDecGo (Nat.lt_succ_self n)

theorem dropWhile_eq_self_of_all {p : Nat → Bool} {l : Bytes}
    (h : ∀ c ∈ l, p c = false) : l.dropWhile p = l := by
  cases l with
  | nil => rfl
  | cons x xs =>
    rw [List.dropWhile_cons, if_neg]
    rw [h x (List.mem_cons_self x xs)]
    simp

theorem pyIntDecode_space_digits {ds : Bytes} (h1 : ds ≠ [])
    (h2 : ∀ c ∈ ds, 48 ≤ c ∧ c < 58) :
    pyIntDecode (32 :: ds) = .ok ((decParse ds : Nat) : Int) := by
  obtain ⟨d, ds', rfl⟩ : ∃ d ds', ds = d :: ds' := by
    cases ds with
    | nil => exact absurd rfl h1
    | cons d ds' => exact ⟨d, ds', rfl⟩
  have hd := h2 d (List.mem_cons_self _ _)
  have hascii : ((32 :: d :: ds').any fun c => 128 ≤ c) = false := by
    rw [List.any_eq_false]
    intro c hc
    simp only [decide_eq_true_eq]
    rcases List.mem_cons.mp hc with rfl | hc
    · omega
    · have := h2 c hc
      omega
  have hnotsp : ∀ c ∈ (d :: ds' : Bytes), isPySpace c = false := by
    intro c hc
    have := h2 c hc
    simp only [isPySpace, Bool.or_eq_false_iff, decide_eq_false_iff_not]
    omega
  rw [pyIntDecode, hascii]
  rw [if_neg (by simp)]
  have hstrip : (((32 :: d :: ds').dropWhile isPySpace).reverse.dropWhile isPySpace).reverse
      = d :: ds' := by
    rw [List.dropWhile_cons, if_pos (show isPySpace 32 = true from rfl)]
    rw [dropWhile_eq_self_of_all hnotsp]
    rw [dropWhile_eq_self_of_all (fun c hc => hnotsp c (List.mem_reverse.mp hc))]
    rw [List.reverse_reverse]
  rw [hstrip]
  have h45 : ¬ d = 45 := by omega
  have h43 : ¬ d = 43 := by omega
  have hall : ((d :: ds').all isDigitByte) = true := by
    rw [List.all_eq_true]
    intro c hc
    have := h2 c hc
    simp only [isDigitByte, Bool.and_eq_true, decide_eq_true_eq]
    omega
  show (if d = 45 then
          if ds' ≠ [] ∧ ds'.all isDigitByte then Except.ok (-(decParse ds' : Int))
          else Except.error Err.valueError
        else if d = 43 then
          if ds' ≠ [] ∧ ds'.all isDigitByte then Except.ok ((decParse ds' : Nat) : Int)
          else Except.error Err.valueError
        else
          if (d :: ds').all isDigitByte then Except.ok ((decParse (d :: ds') : Nat) : Int)
          else Except.error Err.valueError) = _
  rw [if_neg h45, if_neg h43, if_pos hall]

theorem pyFind_zero (raw : Bytes) (c : Nat) : pyFind raw c 0 = pyFindNat raw c 0 := rfl

/-- Evaluation of `objParseFrame` on a framed byte sequence with a
well-formed header: the declared length is compared with the payload
length, then the tag is dispatched. -/
theorem objParseFrame_header {tagB digits p : Bytes}
    (ht32 : 32 ∉ tagB)
    (hd1 : digits ≠ []) (hd2 : ∀ c ∈ digits, 48 ≤ c ∧ c < 58) :
    objParseFrame (tagB ++ [32] ++ digits ++ [0] ++ p) =
      if decParse digits ≠ p.length then .error .badLength
      else if tagB = tagBytes .commit then mkGitObj .commit p
        else if tagB = tagBytes .blob then mkGitObj .blob p
          else .error .noneNotCallable := by
  have hd0 : (0 : Nat) ∉ digits := fun h => by have := hd2 0 h; omega
  have hassoc : (tagB ++ [32] ++ digits ++ [0] ++ p : Bytes)
      = tagB ++ (32 :: (digits ++ 0 :: p)) := by simp
  have hlen : (tagB ++ [32] ++ digits ++ [0] ++ p : Bytes).length
      = tagB.length + 1 + digits.length + 1 + p.length := by
    simp only [List.length_append, List.length_cons, List.length_nil]
  have hbf32 : byteFind 32 ((tagB ++ [32] ++ digits ++ [0] ++ p).drop 0)
      = some tagB.length := by
    rw [List.drop_zero, hassoc, byteFind_append_left ht32, byteFind_cons_self]
    simp
  have hspc : pyFind (tagB ++ [32] ++ digits ++ [0] ++ p) 32 0
      = ((tagB.length : Nat) : Int) := by
    rw [pyFind_zero, pyFindNat_some hbf32]
    simp
  have hdropL : (tagB ++ [32] ++ digits ++ [0] ++ p).drop tagB.length
      = 32 :: (digits ++ 0 :: p) := by
    rw [hassoc, List.drop_left]
  have hbf0 : byteFind 0 ((tagB ++ [32] ++ digits ++ [0] ++ p).drop tagB.length)
      = some (digits.length + 1) := by
    rw [hdropL, byteFind_cons, if_neg (by omega), byteFind_append_left hd0,
      byteFind_cons_self]
    simp
  have hzero : pyFind (tagB ++ [32] ++ digits ++ [0] ++ p) 0 ((tagB.length : Nat) : Int)
      = ((tagB.length + (digits.length + 1) : Nat) : Int) := by
    rw [pyFind_natCast, pyFindNat_some hbf0]
  have hsize : pySlice (tagB ++ [32] ++ digits ++ [0] ++ p) ((tagB.length : Nat) : Int)
      ((tagB.length + (digits.length + 1) : Nat) : Int) = 32 :: digits := by
    rw [pySlice_of_drop hdropL, List.take_succ_cons,
      show (digits ++ 0 :: p).take digits.length = digits from List.take_left _ _]
  have hfmt : pySlice (tagB ++ [32] ++ digits ++ [0] ++ p) 0 ((tagB.length : Nat) : Int)
      = tagB := by
    rw [show (0 : Int) = ((0 : Nat) : Int) from by norm_num, pySlice_nat, List.drop_zero,
      Nat.sub_zero, hassoc, List.take_left]
  have hpay : pySlice (tagB ++ [32] ++ digits ++ [0] ++ p)
      (((tagB.length + (digits.length + 1) : Nat) : Int) + 1)
      (((tagB ++ [32] ++ digits ++ [0] ++ p).length : Nat) : Int) = p := by
    rw [show (((tagB.length + (digits.length + 1) : Nat) : Int) + 1)
          = ((tagB.length + digits.length + 2 : Nat) : Int) from by push_cast; ring]
    rw [pySlice_nat]
    rw [show tagB.length + digits.length + 2 = (tagB ++ [32] ++ digits ++ [0] : Bytes).length
          from by simp only [List.length_append, List.length_cons, List.length_nil]; omega]
    rw [show (tagB ++ [32] ++ digits ++ [0] ++ p : Bytes)
          = (tagB ++ [32] ++ digits ++ [0]) ++ p from by simp]
    rw [List.drop_left]
    rw [show ((tagB ++ [32] ++ digits ++ [0]) ++ p : Bytes).length
          - (tagB ++ [32] ++ digits ++ [0] : Bytes).length = p.length from by
      simp only [List.length_append, List.length_cons, List.length_nil]; omega]
    exact List.take_length p
  rw [objParseFrame, hspc, hzero, objDispatch, hsize,
    pyIntDecode_space_digits hd1 hd2, hfmt]
  show (if ((decParse digits : Nat) : Int)
          ≠ ((tagB ++ [32] ++ digits ++ [0] ++ p : Bytes).length : Int)
            - ((tagB.length + (digits.length + 1) : Nat) : Int) - 1
        then (Except.error Err.badLength : Except Err GitObj)
        else match (if tagB = tagBytes .commit then some ObjClass.commit
                    else if tagB = tagBytes .blob then some ObjClass.blob
                    else none) with
          | none => Except.error Err.noneNotCallable
          | some cls => mkGitObj cls (pySlice (tagB ++ [32] ++ digits ++ [0] ++ p)
              (((tagB.length + (digits.length + 1) : Nat) : Int) + 1)
              (((tagB ++ [32] ++ digits ++ [0] ++ p : Bytes).length : Nat) : Int))) = _
  by_cases hsz : decParse digits = p.length
  · have hc1 : ¬ (((decParse digits : Nat) : Int)
          ≠ ((tagB ++ [32] ++ digits ++ [0] ++ p : Bytes).length : Int)
            - ((tagB.length + (digits.length + 1) : Nat) : Int) - 1) := by
      rw [hlen]
      push_cast
      omega
    rw [if_neg hc1, if_neg (show ¬ (decParse digits ≠ p.length) from by omega)]
    by_cases hc : tagB = tagBytes .commit
    · rw [if_pos hc, if_pos hc]
      show mkGitObj ObjClass.commit (pySlice _ _ _) = _
      rw [hpay]
    · rw [if_neg hc, if_neg hc]
      by_cases hb : tagB = tagBytes .blob
      · rw [if_pos hb, if_pos hb]
        show mkGitObj ObjClass.blob (pySlice _ _ _) = _
        rw [hpay]
      · rw [if_neg hb, if_neg hb]
  · have hc1 : (((decParse digits : Nat) : Int)
          ≠ ((tagB ++ [32] ++ digits ++ [0] ++ p : Bytes).length : Int)
            - ((tagB.length + (digits.length + 1) : Nat) : Int) - 1) := by
      rw [hlen]
      push_cast
      omega
    rw [if_pos hc1, if_pos (show decParse digits ≠ p.length from hsz)]

/-- `objParseFrame` on bytes framed by `obj_write`: the declared length
always matches, so the result is pure tag dispatch. -/
theorem objParseFrame_frameRaw {tagB p : Bytes} (ht32 : 32 ∉ tagB) :
    objParseFrame (frameRaw tagB p) =
      if tagB = tagBytes .commit then mkGitObj .commit p
      else if tagB = tagBytes .blob then mkGitObj .blob p
        else .error .noneNotCallable := by
  rw [frameRaw, objParseFrame_header ht32 (natToDec_ne _) (fun c hc => natToDec_digits c hc)]
  rw [if_neg (by rw [decParse_natToDec]; omega)]

/-! ## Lemmas: the object store -/

theorem storeGet_set_self (s : Store) (path : Bytes × Bytes) (c : Bytes) :
    storeGet (storeSet s path c) path = some c := by
  induction s with
  | nil => simp [storeSet, storeGet]
  | cons q rest ih =>
    obtain ⟨p', c'⟩ := q
    by_cases hp : p' = path
    · rw [storeSet, if_pos hp, storeGet, if_pos hp]
    · rw [storeSet, if_neg hp, storeGet, if_neg hp]
      exact ih

theorem storeSet_of_get {s : Store} {path : Bytes × Bytes} {c : Bytes}
    (h : storeGet s path = some c) : storeSet s path c = s := by
  induction s with
  | nil => cases h
  | cons q rest ih =>
    obtain ⟨p', c'⟩ := q
    by_cases hp : p' = path
    · rw [storeGet, if_pos hp] at h
      injection h with h
      rw [storeSet, if_pos hp, hp, h]
    · rw [storeGet, if_neg hp] at h
      rw [storeSet, if_neg hp, ih h]

theorem storeSet_idem (s : Store) (path : Bytes × Bytes) (c : Bytes) :
    storeSet (storeSet s path c) path c = storeSet s path c :=
  storeSet_of_get (storeGet_set_self s path c)

theorem obj_write_ok {compress sha1hex : Bytes → Bytes} {obj : GitObj} {data : Bytes}
    (hser : objSerialize obj = .ok data) (store : Store) :
    obj_write compress sha1hex obj true store
      = .ok (sha1hex (frameRaw (objFmt obj) data),
          storeSet store (shaPath (sha1hex (frameRaw (objFmt obj) data)))
            (compress (frameRaw (objFmt obj) data))) := by
  rw [obj_write, hser]
  rfl

theorem obj_read_stored {decompress : Bytes → Bytes} {store : Store} {sha file : Bytes}
    (h : storeGet store (shaPath sha) = some file) :
    obj_read decompress store sha = objParseFrame (decompress file) := by
  rw [obj_read, h]

/-! ## Lemmas: the commit graph walk -/

theorem log_graphviz_succ (decompress : Bytes → Bytes) (store : Store)
    (fuel : Nat) (sha : Bytes) (seen : List Bytes) :
    log_graphviz decompress store (fuel + 1) sha seen =
      if sha ∈ seen then .ok seen
      else match obj_read decompress store sha with
        | .error e => .error e
        | .ok (.blob _) => .error .assertError
        | .ok (.commit none) => .error .attributeError
        | .ok (.commit (some kvlm)) =>
          match lookupRec kvlm parentKey with
          | none => .ok (seen ++ [sha])
          | some val => logParents decompress store fuel (valList val) (seen ++ [sha]) := rfl

theorem logParents_nil (decompress : Bytes → Bytes) (store : Store)
    (fuel : Nat) (seen : List Bytes) :
    logParents decompress store (fuel + 1) [] seen = .ok seen := rfl

theorem logParents_cons (decompress : Bytes → Bytes) (store : Store)
    (fuel : Nat) (p : Bytes) (rest : List Bytes) (seen : List Bytes) :
    logParents decompress store (fuel + 1) (p :: rest) seen =
      if p.all (fun c => c < 128) then
        match log_graphviz decompress store fuel p seen with
        | .error e => .error e
        | .ok seen' => logParents decompress store fuel rest seen'
      else .error .unicodeError := rfl

theorem nodup_append_singleton {l : List Bytes} {a : Bytes}
    (h : l.Nodup) (ha : a ∉ l) : (l ++ [a]).Nodup := by
  rw [List.nodup_append]
  refine ⟨h, by simp, ?_⟩
  intro x hx hxa
  simp at hxa
  subst hxa
  exact ha hx

/-- The walk only appends to the `seen` set, and never appends an id
already present: the set stays duplicate-free and each id is processed
at most once. -/
theorem log_walk_wf (decompress : Bytes → Bytes) (store : Store) :
    ∀ fuel : Nat,
    (∀ sha seen seen', log_graphviz decompress store fuel sha seen = .ok seen' →
      (∃ t, seen' = seen ++ t) ∧ (seen.Nodup → seen'.Nodup)) ∧
    (∀ ps seen seen', logParents decompress store fuel ps seen = .ok seen' →
      (∃ t, seen' = seen ++ t) ∧ (seen.Nodup → seen'.Nodup)) := by
  intro fuel
  induction fuel with
  | zero =>
    constructor
    · intro _ _ _ h
      exact Except.noConfusion h
    · intro _ _ _ h
      exact Except.noConfusion h
  | succ fuel ih =>
    constructor
    · intro sha seen seen' h
      rw [log_graphviz_succ] at h
      by_cases hmem : sha ∈ seen
      · rw [if_pos hmem] at h
        injection h with h
        subst h
        exact ⟨⟨[], by simp⟩, fun hn => hn⟩
      · rw [if_neg hmem] at h
        cases hread : obj_read decompress store sha with
        | error e =>
          rw [hread] at h
          exact Except.noConfusion h
        | ok obj =>
          rw [hread] at h
          cases obj with
          | blob d => exact Except.noConfusion h
          | commit okv =>
            cases okv with
            | none => exact Except.noConfusion h
            | some kvlm =>
              replace h : (match lookupRec kvlm parentKey with
                | none => (Except.ok (seen ++ [sha]) : Except Err (List Bytes))
                | some val =>
                  logParents decompress store fuel (valList val) (seen ++ [sha])) =
                  .ok seen' := h
              cases hpar : lookupRec kvlm parentKey with
              | none =>
                rw [hpar] at h
                replace h : Except.ok (seen ++ [sha]) = Except.ok seen' := h
                injection h with h
                subst h
                exact ⟨⟨[sha], rfl⟩, fun hn => nodup_append_singleton hn hmem⟩
              | some val =>
                rw [hpar] at h
                replace h : logParents decompress store fuel (valList val) (seen ++ [sha])
                    = .ok seen' := h
                obtain ⟨⟨t, ht⟩, hnd⟩ := ih.2 (valList val) (seen ++ [sha]) seen' h
                exact ⟨⟨[sha] ++ t, by rw [ht]; simp⟩,
                  fun hn => hnd (nodup_append_singleton hn hmem)⟩
    · intro ps seen seen' h
      cases ps with
      | nil =>
        rw [logParents_nil] at h
        injection h with h
        subst h
        exact ⟨⟨[], by simp⟩, fun hn => hn⟩
      | cons p rest =>
        rw [logParents_cons] at h
        by_cases hal : (p.all (fun c => c < 128) : Bool) = true
        · rw [if_pos hal] at h
          cases hg : log_graphviz decompress store fuel p seen with
          | error e =>
            rw [hg] at h
            exact Except.noConfusion h
          | ok s1 =>
            rw [hg] at h
            replace h : logParents decompress store fuel rest s1 = .ok seen' := h
            obtain ⟨⟨t1, ht1⟩, hnd1⟩ := ih.1 p seen s1 hg
            obtain ⟨⟨t2, ht2⟩, hnd2⟩ := ih.2 rest s1 seen' h
            exact ⟨⟨t1 ++ t2, by rw [ht2, ht1]; simp⟩, fun hn => hnd2 (hnd1 hn)⟩
        · rw [if_neg hal] at h
          exact Except.noConfusion h

/-! ## Claim theorems -/

theorem wfLoose_nil : WfLoose [] :=
  ⟨List.nodup_nil, fun p hp => absurd hp (List.not_mem_nil p)⟩

/-- C1 (counterexample): the KVLM round-trip law fails as stated.  The
input `b' v\nk w\n\nmsg'` has an empty-key field line, so `kvlm_parse`
returns a record whose message key `b''` sits in first position (the
final blank-line assignment overwrites its value in place); serializing
moves the message to the end, and re-parsing yields the same entries in
a different order, which is a different `OrderedDict`. -/
theorem claim_C1_counterexample :
    kvlm_parse [32, 118, 10, 107, 32, 119, 10, 10, 109, 115, 103]
      = .ok [([], .scalar [109, 115, 103]), ([107], .scalar [119])]
    ∧ kvlm_serialize [([], .scalar [109, 115, 103]), ([107], .scalar [119])]
      = .ok [107, 32, 119, 10, 10, 109, 115, 103]
    ∧ kvlm_parse [107, 32, 119, 10, 10, 109, 115, 103]
      = .ok [([107], .scalar [119]), ([], .scalar [109, 115, 103])]
    ∧ ([([107], KVal.scalar [119]), ([], KVal.scalar [109, 115, 103])] : Record)
      ≠ [([], KVal.scalar [109, 115, 103]), ([107], KVal.scalar [119])] :=
  ⟨rfl, rfl, rfl, by decide⟩

/-- C1 (amended): for every KVLM record `r` produced by `kvlm_parse`
whose message key `b''` is the final key of the record (which holds for
every input without an empty-key field line, in particular for all
records with repeated keys and multi-line values), serializing and
re-parsing recovers `r` exactly: `kvlm_parse (kvlm_serialize r) = r`. -/
theorem claim_C1 (raw : Bytes) (r : Record)
    (h : kvlm_parse raw = .ok r)
    (hlast : (r.map Prod.fst).getLast? = some []) :
    ∃ s, kvlm_serialize r = .ok s ∧ kvlm_parse s = .ok r := by
  rw [kvlm_parse] at h
  have hwf := kvlm_parse_go_wf h wfLoose_nil
  exact kvlm_serialize_parse hwf.1 hwf.2 hlast

/-- C1 (witness): the round trip on a record with a repeated `parent`
key and a multi-line value, `b'tree t\nparent aa\nparent bb\nk x\n y\n\nmsg'`. -/
theorem claim_C1_witness :
    kvlm_parse [116, 114, 101, 101, 32, 116, 10,
      112, 97, 114, 101, 110, 116, 32, 97, 97, 10,
      112, 97, 114, 101, 110, 116, 32, 98, 98, 10,
      107, 32, 120, 10, 32, 121, 10, 10, 109, 115, 103]
      = .ok [([116, 114, 101, 101], .scalar [116]),
          ([112, 97, 114, 101, 110, 116], .arr [[97, 97], [98, 98]]),
          ([107], .scalar [120, 10, 121]),
          ([], .scalar [109, 115, 103])]
    ∧ ∃ s, kvlm_serialize [([116, 114, 101, 101], .scalar [116]),
          ([112, 97, 114, 101, 110, 116], .arr [[97, 97], [98, 98]]),
          ([107], .scalar [120, 10, 121]),
          ([], .scalar [109, 115, 103])] = .ok s
        ∧ kvlm_parse s = .ok [([116, 114, 101, 101], .scalar [116]),
          ([112, 97, 114, 101, 110, 116], .arr [[97, 97], [98, 98]]),
          ([107], .scalar [120, 10, 121]),
          ([], .scalar [109, 115, 103])] := by
  have h1 : kvlm_parse [116, 114, 101, 101, 32, 116, 10,
      112, 97, 114, 101, 110, 116, 32, 97, 97, 10,
      112, 97, 114, 101, 110, 116, 32, 98, 98, 10,
      107, 32, 120, 10, 32, 121, 10, 10, 109, 115, 103]
      = .ok [([116, 114, 101, 101], .scalar [116]),
          ([112, 97, 114, 101, 110, 116], .arr [[97, 97], [98, 98]]),
          ([107], .scalar [120, 10, 121]),
          ([], .scalar [109, 115, 103])] := by rfl
  exact ⟨h1, claim_C1 _ _ h1 (by rfl)⟩

/-- C9: a bare blank line (a newline at the current scan position, with
no key token before it: the first space, if any, comes after it) ends
the field section: the parser stores all remaining bytes as the message
under the empty key and returns.  In particular an input that starts
with a blank line yields a record holding only the message field. -/
theorem claim_C9 (raw m : Bytes) (start : Nat) (dct : Record) (fuel : Nat)
    (hdrop : raw.drop start = 10 :: m) :
    kvlm_parse_go raw (fuel + 1) start dct = .ok (setRec dct [] (.scalar m))
    ∧ ∀ m' : Bytes, kvlm_parse (10 :: m') = .ok [([], .scalar m')] := by
  refine ⟨parse_blank hdrop dct fuel, ?_⟩
  intro m'
  rw [kvlm_parse]
  rw [show (10 :: m' : Bytes).length + 1 = m'.length + 1 + 1 from by simp]
  rw [parse_blank (by rw [List.drop_zero]) [] (m'.length + 1)]
  rfl

/-- C9 (witness): parsing `b'\nhi'` and `b'\nx'`. -/
theorem claim_C9_witness :
    kvlm_parse_go [10, 104, 105] 5 0 [] = .ok [([], .scalar [104, 105])]
    ∧ kvlm_parse (10 :: [120]) = .ok [([], .scalar [120])] := by
  have h := claim_C9 [10, 104, 105] [104, 105] 0 [] 4 rfl
  exact ⟨h.1, h.2 [120]⟩

theorem le_length_klines (ls : List (Bytes × Bytes)) : ls.length ≤ (klines ls).length := by
  induction ls with
  | nil => simp [klines]
  | cons p rest ih =>
    rw [klines, List.map_cons, List.flatten_cons, List.length_append, List.length_cons]
    rw [show ((List.map (fun p => p.1 ++ [32] ++ p.2 ++ [10]) rest).flatten : Bytes)
          = klines rest from rfl]
    have : 1 ≤ (p.1 ++ [32] ++ p.2 ++ [10] : Bytes).length := by
      simp only [List.length_append, List.length_cons, List.length_nil]
      omega
    omega

/-- C10: `kvlm_parse` requires a bare blank line before the end of the
input.  An input that is a nonempty sequence of simple `key value\n`
lines with nothing after them fails with the out-of-range access
`raw[end + 1]` in the continuation-line scan (`IndexError`); a final
key-value line with no newline at all fails the base case's
`assert nl == start` instead. -/
theorem claim_C10 (ls : List (Bytes × Bytes)) (hne : ls ≠ [])
    (hwf : ∀ p ∈ ls, wfKey p.1 ∧ 10 ∉ p.2) :
    kvlm_parse (klines ls) = .error .indexError
    ∧ ∀ k v : Bytes, wfKey k → 10 ∉ v →
        kvlm_parse (k ++ [32] ++ v) = .error .assertFail := by
  constructor
  · rw [kvlm_parse]
    have hle := le_length_klines ls
    rw [show (klines ls).length + 1 = ((klines ls).length + 1 - ls.length) + ls.length
          from by omega]
    exact parse_klines (by rw [List.drop_zero]) hne hwf
  · intro k v hk hv
    obtain ⟨hk0, hk32, hk10⟩ := hk
    rw [kvlm_parse, show (k ++ [32] ++ v : Bytes).length + 1
          = (k ++ [32] ++ v : Bytes).length + 1 from rfl]
    have hlen1 : (k ++ [32] ++ v : Bytes).length = (k ++ [32] ++ v : Bytes).length - 1 + 1 := by
      simp only [List.length_append, List.length_cons, List.length_nil]
      omega
    rw [show (k ++ [32] ++ v : Bytes).length + 1
          = ((k ++ [32] ++ v : Bytes).length - 1 + 1) + 1 from by omega]
    rw [kvlm_parse_go_succ]
    have hassoc : (k ++ [32] ++ v : Bytes) = k ++ 32 :: v := by simp
    have hbf32 : byteFind 32 ((k ++ [32] ++ v : Bytes).drop 0) = some k.length := by
      rw [List.drop_zero, hassoc, byteFind_append_left hk32, byteFind_cons_self]
      simp
    have hspc : pyFind (k ++ [32] ++ v) 32 ((0 : Nat) : Int) = ((k.length : Nat) : Int) := by
      rw [pyFind_natCast, pyFindNat_some hbf32]
      simp
    have hbf10 : byteFind 10 ((k ++ [32] ++ v : Bytes).drop 0) = none := by
      rw [List.drop_zero, hassoc, byteFind_eq_none]
      intro hmem
      rcases List.mem_append.mp hmem with hmem | hmem
      · exact hk10 hmem
      · rcases List.mem_cons.mp hmem with hmem | hmem
        · omega
        · exact hv hmem
    have hnl : pyFind (k ++ [32] ++ v) 10 ((0 : Nat) : Int) = -1 := by
      rw [pyFind_natCast, pyFindNat_none hbf10]
    rw [if_pos (by rw [hspc, hnl]; right; omega)]
    rw [if_neg (by rw [hnl]; omega)]

/-- C10 (witness): `b'key value\n'` hits the `IndexError`, `b'key value'`
the failed assertion. -/
theorem claim_C10_witness :
    kvlm_parse [107, 101, 121, 32, 118, 97, 108, 117, 101, 10] = .error .indexError
    ∧ kvlm_parse [107, 101, 121, 32, 118, 97, 108, 117, 101] = .error .assertFail := by
  have h := claim_C10 [([107, 101, 121], [118, 97, 108, 117, 101])] (by decide)
    (by
      intro p hp
      simp only [List.mem_singleton] at hp
      subst hp
      exact ⟨⟨by decide, by decide, by decide⟩, by decide⟩)
  exact ⟨h.1, h.2 [107, 101, 121] [118, 97, 108, 117, 101]
    ⟨by decide, by decide, by decide⟩ (by decide)⟩

theorem mkGitObj_ne_noneNotCallable (cls : ObjClass) (p : Bytes) :
    mkGitObj cls p ≠ .error .noneNotCallable := by
  rw [mkGitObj.eq_def]
  by_cases hp : p = []
  · rw [if_pos hp]
    cases cls <;> simp
  · rw [if_neg hp]
    cases cls with
    | blob => simp
    | commit =>
      cases hk : kvlm_parse p <;> simp

theorem mkGitObj_ne_badLength (cls : ObjClass) (p : Bytes) :
    mkGitObj cls p ≠ .error .badLength := by
  rw [mkGitObj.eq_def]
  by_cases hp : p = []
  · rw [if_pos hp]
    cases cls <;> simp
  · rw [if_neg hp]
    cases cls with
    | blob => simp
    | commit =>
      cases hk : kvlm_parse p <;> simp

/-- C2 (counterexample): the framing round trip fails as stated.  A
`tree`-framed payload is one of the four variant tags, yet `obj_read`'s
dispatch finds no class for it (the `tree` branch is commented out) and
fails; and an empty `blob` payload is falsy, so the constructor skips
`deserialize` and the payload is not recovered. -/
theorem claim_C2_counterexample :
    objParseFrame (frameRaw (tagBytes .tree) []) = .error .noneNotCallable
    ∧ objParseFrame (frameRaw (tagBytes .blob) []) = .ok (.blob none) :=
  ⟨rfl, rfl⟩

/-- C2 (amended): framing a payload and parsing it back recovers the
kind and hands the payload to the matched class only for `blob` and
`commit`: a nonempty blob payload is recovered exactly; a commit payload
is handed to the KVLM parser, whose result or failure propagates; `tree`
and `tag` payloads always fail with the no-deserializer `TypeError`
(`format_class` stays `None`); an empty payload skips `deserialize`,
leaving an object without payload data. -/
theorem claim_C2 (p : Bytes) :
    objParseFrame (frameRaw (tagBytes .blob) p) = mkGitObj .blob p
    ∧ objParseFrame (frameRaw (tagBytes .commit) p) = mkGitObj .commit p
    ∧ objParseFrame (frameRaw (tagBytes .tree) p) = .error .noneNotCallable
    ∧ objParseFrame (frameRaw (tagBytes .tag) p) = .error .noneNotCallable
    ∧ (p ≠ [] → mkGitObj .blob p = .ok (.blob (some p)))
    ∧ mkGitObj .blob [] = .ok (.blob none)
    ∧ (p ≠ [] → (∀ r, kvlm_parse p = .ok r → mkGitObj .commit p = .ok (.commit (some r)))
        ∧ (∀ e, kvlm_parse p = .error e → mkGitObj .commit p = .error (.kvlm e))) := by
  refine ⟨?_, ?_, ?_, ?_, ?_, rfl, ?_⟩
  · rw [objParseFrame_frameRaw (by decide), if_neg (by decide), if_pos rfl]
  · rw [objParseFrame_frameRaw (by decide), if_pos rfl]
  · rw [objParseFrame_frameRaw (by decide), if_neg (by decide), if_neg (by decide)]
  · rw [objParseFrame_frameRaw (by decide), if_neg (by decide), if_neg (by decide)]
  · intro hp
    rw [mkGitObj.eq_def, if_neg hp]
  · intro hp
    constructor
    · intro r hr
      rw [mkGitObj.eq_def, if_neg hp]
      show (match kvlm_parse p with
        | .error e => (Except.error (Err.kvlm e) : Except Err GitObj)
        | .ok r => .ok (.commit (some r))) = _
      rw [hr]
    · intro e he
      rw [mkGitObj.eq_def, if_neg hp]
      show (match kvlm_parse p with
        | .error e => (Except.error (Err.kvlm e) : Except Err GitObj)
        | .ok r => .ok (.commit (some r))) = _
      rw [he]

/-- C2 (witness): the blob and commit clauses at the nonempty payload
`b'\nm'`. -/
theorem claim_C2_witness :
    objParseFrame (frameRaw (tagBytes .blob) [10, 109]) = .ok (.blob (some [10, 109]))
    ∧ objParseFrame (frameRaw (tagBytes .commit) [10, 109])
      = .ok (.commit (some [([], .scalar [109])])) := by
  have h := claim_C2 [10, 109]
  constructor
  · rw [h.1]
    exact h.2.2.2.2.1 (by decide)
  · rw [h.2.1]
    exact (h.2.2.2.2.2.2 (by decide)).1 [([], .scalar [109])] rfl

/-- C3 (counterexample): the store round trip fails as stated.  With
identity compression and a fixed digest function, writing a blob whose
payload is empty succeeds, but reading it back under the returned id
yields a blob whose data attribute was never set (the constructor skips
`deserialize` on falsy data), so the original payload bytes are not
recovered. -/
theorem claim_C3_counterexample :
    obj_write id (fun _ => [97, 98, 99, 100]) (.blob (some [])) true []
      = .ok ([97, 98, 99, 100],
          [(([97, 98], [99, 100]), frameRaw (tagBytes .blob) [])])
    ∧ obj_read id [(([97, 98], [99, 100]), frameRaw (tagBytes .blob) [])] [97, 98, 99, 100]
      = .ok (.blob none)
    ∧ GitObj.blob none ≠ GitObj.blob (some [])
    ∧ objSerialize (.blob none) = .error .attributeError :=
  ⟨rfl, rfl, by decide, rfl⟩

/-- C3 (amended): for every nonempty byte sequence `b` framed for kind
`blob`, writing it with `obj_write` and reading back with `obj_read`
under the returned digest id yields exactly the original payload;
compression and the two-level bucket path `sha[:2]/sha[2:]` are
invisible to the caller (any compress/decompress pair that inverts, and
any digest function). -/
theorem claim_C3 (compress decompress sha1hex : Bytes → Bytes)
    (hzl : ∀ x, decompress (compress x) = x) (b : Bytes) (hb : b ≠ [])
    (store : Store) :
    ∃ sha store', obj_write compress sha1hex (.blob (some b)) true store = .ok (sha, store')
      ∧ obj_read decompress store' sha = .ok (.blob (some b)) := by
  refine ⟨sha1hex (frameRaw (tagBytes .blob) b),
    storeSet store (shaPath (sha1hex (frameRaw (tagBytes .blob) b)))
      (compress (frameRaw (tagBytes .blob) b)), ?_, ?_⟩
  · exact obj_write_ok (show objSerialize (GitObj.blob (some b)) = .ok b from rfl) store
  · rw [obj_read_stored (storeGet_set_self _ _ _), hzl]
    rw [objParseFrame_frameRaw (by decide), if_neg (by decide), if_pos rfl]
    rw [mkGitObj.eq_def, if_neg hb]

/-- C3 (witness): write-then-read of the blob `b'hi'` with identity
compression and a fixed digest. -/
theorem claim_C3_witness :
    ∃ sha store', obj_write id (fun _ => [97, 97, 98, 98]) (.blob (some [104, 105])) true []
        = .ok (sha, store')
      ∧ obj_read id store' sha = .ok (.blob (some [104, 105])) := by
  exact claim_C3 id id (fun _ => [97, 97, 98, 98]) (fun x => rfl) [104, 105] (by decide) []

/-- C4: idempotent write.  If the record for an object's digest id is
already stored (holding the compressed frame, as left by a first
`obj_write`), a second `obj_write` does not error, leaves the store
state exactly unchanged, and returns the same id; moreover every write
of the same object returns that same digest id regardless of the store
it starts from. -/
theorem claim_C4 (compress sha1hex : Bytes → Bytes) (obj : GitObj) (store : Store)
    (data : Bytes) (hser : objSerialize obj = .ok data)
    (hex : storeGet store (shaPath (sha1hex (frameRaw (objFmt obj) data)))
      = some (compress (frameRaw (objFmt obj) data))) :
    obj_write compress sha1hex obj true store
      = .ok (sha1hex (frameRaw (objFmt obj) data), store)
    ∧ ∀ store₀ sha₀ st₀, obj_write compress sha1hex obj true store₀ = .ok (sha₀, st₀) →
        sha₀ = sha1hex (frameRaw (objFmt obj) data) := by
  constructor
  · rw [obj_write_ok hser, storeSet_of_get hex]
  · intro store₀ sha₀ st₀ h
    rw [obj_write_ok hser, Except.ok.injEq, Prod.mk.injEq] at h
    exact h.1.symm

/-- C4 (witness): a second write of the blob `b'h'` into a store that
already holds its record is a no-op returning the same id. -/
theorem claim_C4_witness :
    obj_write id (fun _ => [97, 98, 99]) (.blob (some [104])) true
        [(([97, 98], [99]), frameRaw (tagBytes .blob) [104])]
      = .ok ([97, 98, 99], [(([97, 98], [99]), frameRaw (tagBytes .blob) [104])]) := by
  have h := claim_C4 id (fun _ => [97, 98, 99]) (.blob (some [104]))
    [(([97, 98], [99]), frameRaw (tagBytes .blob) [104])] [104] rfl rfl
  exact h.1

/-- C5 (counterexample): the unknown-kind error contract fails as
stated.  `tree` is one of the four recognized tags, yet parsing a
`tree`-framed sequence fails with exactly the same failure value as an
unknown tag such as `b'xyz'`: the dispatch leaves `format_class` as
`None` in both cases. -/
theorem claim_C5_counterexample :
    objParseFrame (frameRaw (tagBytes .tree) []) = .error .noneNotCallable
    ∧ objParseFrame (frameRaw [120, 121, 122] []) = .error .noneNotCallable :=
  ⟨rfl, rfl⟩

/-- C5 (amended): parsing a framed byte sequence fails with the
no-deserializer failure (calling the `None` left in `format_class`, a
`TypeError`) exactly when the kind tag is outside {`blob`, `commit`} —
including the recognized tags `tree` and `tag` — and never fails with
that failure for `blob` or `commit`. -/
theorem claim_C5 (tagB p : Bytes) (ht32 : 32 ∉ tagB) :
    (tagB ≠ tagBytes .blob → tagB ≠ tagBytes .commit →
      objParseFrame (frameRaw tagB p) = .error .noneNotCallable)
    ∧ objParseFrame (frameRaw (tagBytes .blob) p) ≠ .error .noneNotCallable
    ∧ objParseFrame (frameRaw (tagBytes .commit) p) ≠ .error .noneNotCallable := by
  refine ⟨?_, ?_, ?_⟩
  · intro hb hc
    rw [objParseFrame_frameRaw ht32, if_neg hc, if_neg hb]
  · rw [objParseFrame_frameRaw (by decide), if_neg (by decide), if_pos rfl]
    exact mkGitObj_ne_noneNotCallable _ _
  · rw [objParseFrame_frameRaw (by decide), if_pos rfl]
    exact mkGitObj_ne_noneNotCallable _ _

/-- C5 (witness): the unknown tag `b'x'` fails with the dispatch failure
while a blob frame does not. -/
theorem claim_C5_witness :
    objParseFrame (frameRaw [120] []) = .error .noneNotCallable
    ∧ objParseFrame (frameRaw (tagBytes .blob) []) ≠ .error .noneNotCallable := by
  have h := claim_C5 [120] [] (by decide)
  exact ⟨h.1 (by decide) (by decide), h.2.1⟩

/-- C6 (counterexample): the length-mismatch contract fails in its
second half as stated: for the frame `b'tree 0\x00'` the declared
length (0) equals the byte count after the null, yet the payload is not
handed to any variant deserializer — the dispatch fails on the missing
`tree` class. -/
theorem claim_C6_counterexample :
    objParseFrame [116, 114, 101, 101, 32, 48, 0] = .error .noneNotCallable
    ∧ decParse [48] = 0 :=
  ⟨rfl, rfl⟩

/-- C6 (amended): for a stored frame `tag ++ b' ' ++ digits ++ b'\x00'
++ payload` with a well-formed header, `obj_read`'s parse fails with the
bad-length failure if and only if the declared ASCII-decimal length
differs from the number of bytes after the null terminator; when they
agree, the payload is handed to the variant's deserializer provided the
variant has one wired (`blob` or `commit`). -/
theorem claim_C6 (tagB digits p : Bytes) (ht32 : 32 ∉ tagB)
    (hd1 : digits ≠ []) (hd2 : ∀ c ∈ digits, 48 ≤ c ∧ c < 58) :
    (objParseFrame (tagB ++ [32] ++ digits ++ [0] ++ p) = .error .badLength
      ↔ decParse digits ≠ p.length)
    ∧ (decParse digits = p.length →
        (tagB = tagBytes .blob →
          objParseFrame (tagB ++ [32] ++ digits ++ [0] ++ p) = mkGitObj .blob p)
        ∧ (tagB = tagBytes .commit →
          objParseFrame (tagB ++ [32] ++ digits ++ [0] ++ p) = mkGitObj .commit p)) := by
  rw [objParseFrame_header ht32 hd1 hd2]
  constructor
  · by_cases hsz : decParse digits = p.length
    · rw [if_neg (by omega)]
      constructor
      · intro h
        by_cases hc : tagB = tagBytes .commit
        · rw [if_pos hc] at h
          exact absurd h (mkGitObj_ne_badLength _ _)
        · rw [if_neg hc] at h
          by_cases hb : tagB = tagBytes .blob
          · rw [if_pos hb] at h
            exact absurd h (mkGitObj_ne_badLength _ _)
          · rw [if_neg hb] at h
            cases h
      · intro h
        exact absurd hsz h
    · rw [if_pos hsz]
      exact ⟨fun _ => hsz, fun _ => rfl⟩
  · intro hsz
    rw [if_neg (by omega)]
    constructor
    · intro hb
      rw [hb, if_neg (by decide), if_pos rfl]
    · intro hc
      rw [hc, if_pos rfl]

/-- C6 (witness): a blob frame declaring length 2 over a 1-byte payload
fails with the bad-length failure; declaring 1 hands the payload to the
blob deserializer. -/
theorem claim_C6_witness :
    objParseFrame ([98, 108, 111, 98] ++ [32] ++ [50] ++ [0] ++ [104]) = .error .badLength
    ∧ objParseFrame ([98, 108, 111, 98] ++ [32] ++ [49] ++ [0] ++ [104])
      = mkGitObj .blob [104] := by
  constructor
  · exact (claim_C6 [98, 108, 111, 98] [50] [104] (by decide) (by decide)
      (by decide)).1.mpr (by decide)
  · exact ((claim_C6 [98, 108, 111, 98] [49] [104] (by decide) (by decide)
      (by decide)).2 (by decide)).1 rfl

/-- C7 (counterexample): the reference resolver contract fails as
stated.  In a repository state holding two objects whose ids `abcd` and
`abce` share the hex prefix `ab`, `obj_find` on that prefix does not
fail with an ambiguity error and does not return a full id: it returns
the two-character prefix unchanged. -/
theorem claim_C7_counterexample :
    obj_find [(([97, 98], [99, 100]), [1]), (([97, 98], [99, 101]), [2])] [97, 98] none true
      = [97, 98]
    ∧ ([97, 98] : Bytes) ≠ [97, 98, 99, 100]
    ∧ ([97, 98] : Bytes) ≠ [97, 98, 99, 101] :=
  ⟨rfl, by decide, by decide⟩

/-- C7 (amended): `obj_find` is the source's placeholder resolver: for
every repository state, name, expected format and follow flag it returns
the given name unchanged — it performs no prefix search, detects no
ambiguity, and cannot fail. -/
theorem claim_C7 (repo : Store) (name : Bytes) (fmt : Option Bytes) (follow : Bool) :
    obj_find repo name fmt follow = name := rfl

/-- C8: the commit graph walk visits and emits each commit id at most
once: the `seen` set only grows along the walk and stays free of
duplicates, so an id reachable along several paths (a diamond history)
is processed exactly once; the walk returns at commits without a
`parent` field. -/
theorem claim_C8 (decompress : Bytes → Bytes) (store : Store) (fuel : Nat)
    (sha : Bytes) (seen seen' : List Bytes) (hnd : seen.Nodup)
    (h : log_graphviz decompress store fuel sha seen = .ok seen') :
    seen'.Nodup ∧ ∃ t, seen' = seen ++ t := by
  obtain ⟨ht, hnd'⟩ := (log_walk_wf decompress store fuel).1 sha seen seen' h
  exact ⟨hnd' hnd, ht⟩

/-- C8 (witness): the diamond history: the walk from the merge commit
`aaaa` reports the common root `dddd` exactly once. -/
theorem claim_C8_witness :
    log_graphviz id diamondStore 10 [97, 97, 97, 97] []
      = .ok [[97, 97, 97, 97], [98, 98, 98, 98], [100, 100, 100, 100], [99, 99, 99, 99]]
    ∧ ([[97, 97, 97, 97], [98, 98, 98, 98], [100, 100, 100, 100],
        [99, 99, 99, 99]] : List Bytes).Nodup
    ∧ List.count ([100, 100, 100, 100] : Bytes)
        [[97, 97, 97, 97], [98, 98, 98, 98], [100, 100, 100, 100], [99, 99, 99, 99]] = 1 := by
  have h := claim_C8 id diamondStore 10 [97, 97, 97, 97] []
    [[97, 97, 97, 97], [98, 98, 98, 98], [100, 100, 100, 100], [99, 99, 99, 99]]
    (by decide) (by rfl)
  exact ⟨by rfl, h.1, by decide⟩

end Wyag
